import Mathlib

/-!
# incubator-devlake: the paginated API collector and the git-extractor options

A shallow embedding of

* `plugins/helper/api_collector.go` (`ApiCollector.Execute`, `exec`, `fetchPagesAsync`,
  `fetchAsync`, `saveRawData`, `recursive`, the response handlers), and
* `plugins/gitextractor/tasks/git_repo_collector.go` (`GitExtractorOptions.Valid`).

Conventions of the embedding.

* Go `int` is 64 bits wide. A page number is an exact `Int`: it counts pages of the
  server and stays below `2^63`. The offset `Skip`, a product of page size and page
  number, is reduced to the range of `int` after each operation (`wrapInt`), as Go's
  arithmetic does.
* Go `string` is `String`; `strings.HasPrefix` compares the leading characters.
* An `error` result is `Option Error` (`none` is `nil`); a `(value, error)` result is
  `Except Error value`.
* The collaborators the collector only calls (the database handle, the asynchronous HTTP
  client, the server behind it, `json.Marshal`) are the fields of `World`.
* The asynchronous client is a work queue: `GetAsync` appends the request to
  `State.pending`, and the client later delivers the answer of one pending request to
  its completion handler (`stepAsync`), in an order chosen by a schedule. A handler runs
  as one step. Handler closures are the constructors of `Handler`, each carrying the
  variables the closure reads.
* The bulk insert `db.Table(table).Create(dd)` appends the rows `dd` to the table when
  it succeeds and writes nothing when it fails.
* `State.fetched`, `State.inserted`, `State.progressLog`, `State.closed` and
  `State.waited` are history variables: they record the calls made so far.
-/

namespace Tasks

/-- Go `strings.HasPrefix`. -/
def HasPrefix (s pre : String) : Bool := pre.data.isPrefixOf s.data

/-- Go `strings.TrimPrefix`: `s` without the leading `pre`, or `s` itself. -/
def TrimPrefix (s pre : String) : String :=
  if HasPrefix s pre then ⟨s.data.drop pre.data.length⟩ else s

structure GitExtractorOptions where
  RepoId : String
  Url : String
  User : String
  Password : String
  PrivateKey : String
  Passphrase : String
  Proxy : String

/-- The method `GitExtractorOptions.Valid`: `none` is the `nil` error. -/
def GitExtractorOptions.Valid (o : GitExtractorOptions) : Option String :=
  if o.RepoId = "" then some "empty repoId"
  else if o.Url = "" then some "empty url"
  else
    let url := TrimPrefix o.Url "ssh://"
    if !(HasPrefix o.Url "http" || HasPrefix url "git@" || HasPrefix o.Url "/") then
      some "wrong url"
    else if o.Proxy ≠ "" && !HasPrefix o.Proxy "http://" then
      some "only support http proxy"
    else none

end Tasks

namespace Helper

abbrev Error := String

/-- The value of an `int` result in Go (64 bits, two's complement): the integer reduced
to the range `-2^63 .. 2^63 - 1`. -/
def wrapInt (x : Int) : Int :=
  (x + 9223372036854775808) % 18446744073709551616 - 9223372036854775808

structure Pager where
  Page : Int
  Skip : Int
  Size : Int
deriving DecidableEq, Repr

structure RequestData (ι : Type) where
  Pager : Option Pager
  Input : Option ι

/-- A row of the raw-data table, as filled in by `saveRawData`. -/
structure RawData where
  Params : String
  Data : String
  Url : String
  Input : String
deriving DecidableEq, Repr

/-- The fields of `ApiCollectorArgs` that `Execute` reads. `Input` is the driving
iterator: the results of its successive `Fetch` calls (`HasNext` is "the list is not
empty"). `ι` is the type of a driving record, `ρ` the type of an HTTP response. -/
structure ApiCollectorArgs (ι ρ : Type) where
  Query : Option (RequestData ι → Except Error String)
  Header : Option (RequestData ι → Except Error String)
  PageSize : Int
  Incremental : Bool
  Input : Option (List (Except Error ι))
  GetTotalPages : Option (ρ → Except Error Int)
  Concurrency : Int
  ResponseParser : ρ → Except Error (List String)

/-- What the collector calls but does not implement. -/
structure World (ι ρ : Type) where
  /-- the error of `db.Table(table).AutoMigrate(&RawData{})` -/
  AutoMigrate : Option Error
  /-- the error of `db.Table(table).Delete(&RawData{}, "params = ?", params)` -/
  Delete : Option Error
  /-- the error of `db.Table(table).Create(dd)` -/
  Create : List RawData → Option Error
  /-- the error returned by `ApiClient.GetAsync(url, query, header, handler)` -/
  GetAsync : String → String → String → Option Error
  /-- the answer of the (deterministic) server to the request made for a pager and a
  driving record; `none` when the request fails and no handler is called -/
  respond : Pager → Option ι → Option ρ
  /-- the value of `res.Request.URL.String()` -/
  requestUrl : ρ → String
  /-- the value of `json.Marshal(input)`; `none` is the `nil` input -/
  jsonMarshal : Option ι → String

structure ApiCollector (ι ρ : Type) where
  args : ApiCollectorArgs ι ρ
  /-- the run fingerprint, `collector.params` -/
  params : String
  /-- the result of `collector.urlTemplate.Execute` on the pager, `args.Params` and the
  input -/
  urlTemplate : Pager → Option ι → Except Error String
  world : World ι ρ

/-- The progress counter of the subtask context. -/
structure Progress where
  done : Int
  total : Int
deriving DecidableEq, Repr

/-- The completion handlers that the collector hands to `GetAsync`. -/
inductive Handler (ι ρ : Type) where
  /-- the closure returned by `handleNoPageResponse(reqData)`; it reads `reqData.Input` -/
  | handleNoPageResponse (input : Option ι)
  /-- the closure of the first page in `fetchPagesAsync`; it reads `GetTotalPages` and
  `reqData.Input` -/
  | firstPage (getTotalPages : ρ → Except Error Int) (input : Option ι)
  /-- the closure of the pages `2..totalPages` in `fetchPagesAsync` -/
  | otherPage
  /-- the closure returned by `recursive(reqData)`; it reads and updates
  `reqData.Pager` and reads `reqData.Input` -/
  | recursive (pager : Pager) (input : Option ι)

/-- One request handed to `GetAsync`. -/
structure Fetch (ι ρ : Type) where
  url : String
  pager : Pager
  input : Option ι
  handler : Handler ι ρ

structure State (ι ρ : Type) where
  /-- the rows of the raw-data table -/
  table : List RawData
  /-- the rows created by `saveRawData` so far -/
  inserted : List RawData
  progress : Progress
  /-- every value the progress counter was given so far -/
  progressLog : List Progress
  /-- the requests handed to `GetAsync` so far -/
  fetched : List (Fetch ι ρ)
  /-- the requests whose handler has not run yet -/
  pending : List (Fetch ι ρ)
  /-- the errors returned by handlers -/
  handlerErrors : List Error
  /-- whether `iterator.Close()` was called -/
  closed : Bool
  /-- whether `ApiClient.WaitAsync()` was called -/
  waited : Bool

/-- The state before `Execute`, for a table and a progress counter. -/
def State.init {ι ρ : Type} (table : List RawData) (progress : Progress) : State ι ρ :=
  { table := table, inserted := [], progress := progress, progressLog := [],
    fetched := [], pending := [], handlerErrors := [], closed := false, waited := false }

/-- Modelled from the spec: `SubTaskContext.SetProgress` is not in the sources; the
counter is a (done, total) pair and `SetProgress(done, total)` overwrites both. -/
def SetProgress {ι ρ : Type} (done total : Int) (st : State ι ρ) : State ι ρ :=
  { st with progress := ⟨done, total⟩, progressLog := st.progressLog ++ [⟨done, total⟩] }

/-- Modelled from the spec: `SubTaskContext.IncProgress` is not in the sources;
`IncProgress(n)` adds `n` to done and leaves total. -/
def IncProgress {ι ρ : Type} (n : Int) (st : State ι ρ) : State ι ρ :=
  { st with
    progress := ⟨st.progress.done + n, st.progress.total⟩
    progressLog := st.progressLog ++ [⟨st.progress.done + n, st.progress.total⟩] }

section Collector

variable {ι ρ : Type}

/-- The pager that `fetchAsync` gives a request without one. -/
def defaultPager : Pager := { Page := 1, Size := 100, Skip := 0 }

/-- The method `ApiCollector.generateUrl`: the URL template rendered on the pager, the run
parameters and the input. -/
def generateUrl (c : ApiCollector ι ρ) (pager : Pager) (input : Option ι) :
    Except Error String :=
  c.urlTemplate pager input

/-- The method `ApiCollector.fetchAsync`. -/
def fetchAsync (c : ApiCollector ι ρ) (reqData : RequestData ι) (handler : Handler ι ρ)
    (st : State ι ρ) : Option Error × State ι ρ :=
  let pager := match reqData.Pager with
    | some p => p
    | none => defaultPager
  let reqData : RequestData ι := { reqData with Pager := some pager }
  match generateUrl c pager reqData.Input with
  | .error e => (some e, st)
  | .ok apiUrl =>
    let apiQuery := match c.args.Query with
      | some query => query reqData
      | none => .ok ""
    match apiQuery with
    | .error e => (some e, st)
    | .ok apiQuery =>
      let apiHeader := match c.args.Header with
        | some header => header reqData
        | none => .ok ""
      match apiHeader with
      | .error e => (some e, st)
      | .ok apiHeader =>
        match c.world.GetAsync apiUrl apiQuery apiHeader with
        | some e => (some e, st)
        | none =>
          let f : Fetch ι ρ := ⟨apiUrl, pager, reqData.Input, handler⟩
          (none, { st with fetched := st.fetched ++ [f], pending := st.pending ++ [f] })

/-- The method `ApiCollector.saveRawData`: the number of rows and the error. -/
def saveRawData (c : ApiCollector ι ρ) (res : ρ) (input : Option ι) (st : State ι ρ) :
    (Int × Option Error) × State ι ρ :=
  match c.args.ResponseParser res with
  | .error e => ((0, some e), st)
  | .ok items =>
    let inputJson := c.world.jsonMarshal input
    if items.length = 0 then ((0, none), st)
    else
      let u := c.world.requestUrl res
      let dd : List RawData := items.map fun msg =>
        { Params := c.params, Data := msg, Url := u, Input := inputJson }
      match c.world.Create dd with
      | some e => (((dd.length : Int), some e), st)
      | none =>
        (((dd.length : Int), none),
          { st with table := st.table ++ dd, inserted := st.inserted ++ dd })

/-- The method `ApiCollector.handleResponse`. -/
def handleResponse (c : ApiCollector ι ρ) (res : ρ) (st : State ι ρ) :
    Option Error × State ι ρ :=
  let r := saveRawData c res none st
  (r.1.2, r.2)

/-- The pager of page `page` in the known-total loop of `fetchPagesAsync`; the product
in `Skip` is reduced to the range of `int`. -/
def pagePager (c : ApiCollector ι ρ) (page : Int) : Pager :=
  { Page := page, Size := c.args.PageSize, Skip := wrapInt (c.args.PageSize * (page - 1)) }

/-- The loop `for page := 2; page <= totalPages; page++` of the first page's handler,
over the pages still to dispatch. -/
def otherPagesLoop (c : ApiCollector ι ρ) (input : Option ι) :
    List Int → State ι ρ → Option Error × State ι ρ
  | [], st => (none, st)
  | page :: rest, st =>
    match fetchAsync c ⟨some (pagePager c page), input⟩ .otherPage st with
    | (some e, st1) => (some e, st1)
    | (none, st1) => otherPagesLoop c input rest st1

/-- The values of `page` in `for page := 2; page <= totalPages; page++`. -/
def otherPages (totalPages : Int) : List Int :=
  (List.range (totalPages - 1).toNat).map fun (k : Nat) => (k : Int) + 2

/-- The initial pager of stripe `i` in `fetchPagesAsync`; the product in `Skip` is
reduced to the range of `int`. -/
def stripePager (c : ApiCollector ι ρ) (i : Int) : Pager :=
  { Page := i + 1, Size := c.args.PageSize, Skip := wrapInt (c.args.PageSize * i) }

/-- The two pager updates of `recursive`: `Skip += PageSize * Page`, reduced to the
range of `int`, then `Page += Concurrency`, the page number being exact. -/
def advancePager (c : ApiCollector ι ρ) (pager : Pager) : Pager :=
  let pager1 := { pager with Skip := wrapInt (pager.Skip + c.args.PageSize * pager.Page) }
  { pager1 with Page := pager1.Page + c.args.Concurrency }

/-- The body of a completion handler, run on the response of its request. -/
def runHandler (c : ApiCollector ι ρ) (h : Handler ι ρ) (res : ρ) (st : State ι ρ) :
    Option Error × State ι ρ :=
  match h with
  | .handleNoPageResponse input =>
    let r := saveRawData c res input st
    (r.1.2, r.2)
  | .firstPage getTotalPages input =>
    match getTotalPages res with
    | .error e => (some e, st)
    | .ok totalPages =>
      match handleResponse c res st with
      | (some e, st1) => (some e, st1)
      | (none, st1) =>
        let st2 := if c.args.Input.isNone then SetProgress 1 totalPages st1 else st1
        otherPagesLoop c input (otherPages totalPages) st2
  | .otherPage =>
    match handleResponse c res st with
    | (some e, st1) => (some e, st1)
    | (none, st1) => (none, if c.args.Input.isNone then IncProgress 1 st1 else st1)
  | .recursive pager input =>
    match saveRawData c res input st with
    | ((_, some e), st1) => (some e, st1)
    | ((count, none), st1) =>
      if count < c.args.PageSize then (none, st1)
      else
        let pager1 := advancePager c pager
        fetchAsync c ⟨some pager1, input⟩ (.recursive pager1 input) st1

/-- The loop `for i := 0; i < Concurrency; i++` of `fetchPagesAsync`, over the stripes
still to start. -/
def stripesLoop (c : ApiCollector ι ρ) (input : Option ι) :
    List Nat → State ι ρ → Option Error × State ι ρ
  | [], st => (none, st)
  | i :: rest, st =>
    let pager := stripePager c (i : Int)
    match fetchAsync c ⟨some pager, input⟩ (.recursive pager input) st with
    | (some e, st1) => (some e, st1)
    | (none, st1) => stripesLoop c input rest st1

/-- The method `ApiCollector.fetchPagesAsync`. -/
def fetchPagesAsync (c : ApiCollector ι ρ) (reqData : RequestData ι) (st : State ι ρ) :
    Option Error × State ι ρ :=
  let r := match c.args.GetTotalPages with
    | some getTotalPages => fetchAsync c reqData (.firstPage getTotalPages reqData.Input) st
    | none => stripesLoop c reqData.Input (List.range c.args.Concurrency.toNat) st
  match r with
  | (some e, st1) => (some e, st1)
  | (none, st1) => (none, if c.args.Input.isSome then IncProgress 1 st1 else st1)

/-- The method `ApiCollector.exec`. -/
def exec (c : ApiCollector ι ρ) (input : Option ι) (st : State ι ρ) :
    Option Error × State ι ρ :=
  let reqData : RequestData ι := { Pager := none, Input := input }
  if c.args.PageSize > 0 then fetchPagesAsync c reqData st
  else fetchAsync c reqData (.handleNoPageResponse reqData.Input) st

/-- Modelled from the spec: the asynchronous client is not in the sources. A handler
executes when the client completes the request, and handler errors are reported through
the client: the handler of a completed request runs on the response, and an error it
returns is recorded by the client. -/
def deliver (c : ApiCollector ι ρ) (f : Fetch ι ρ) (st : State ι ρ) : State ι ρ :=
  match c.world.respond f.pager f.input with
  | none => st
  | some res =>
    match runHandler c f.handler res st with
    | (some e, st1) => { st1 with handlerErrors := st1.handlerErrors ++ [e] }
    | (none, st1) => st1

/-- Modelled from the spec: the asynchronous client is not in the sources. One of the
requests in flight completes, the one numbered `pick % pending.length`; across
requests no order is guaranteed. Nothing happens when no request is pending. -/
def stepAsync (c : ApiCollector ι ρ) (pick : Nat) (st : State ι ρ) : State ι ρ :=
  match st.pending[pick % st.pending.length]? with
  | none => st
  | some f => deliver c f { st with pending := st.pending.eraseIdx (pick % st.pending.length) }

/-- Modelled from the spec: the asynchronous client is not in the sources. The
requests in flight complete one at a time, in the order given by a schedule. -/
def runAsync (c : ApiCollector ι ρ) (sched : List Nat) (st : State ι ρ) : State ι ρ :=
  sched.foldl (fun s pick => stepAsync c pick s) st

/-- Modelled from the spec: `ApiClient.WaitAsync()` is not in the sources. It is the
quiescence barrier, a blocking wait until no dispatched fetch remains in flight: the
requests complete as the schedule says, and the call is recorded. The barrier has been
passed when `pending` is empty. -/
def WaitAsync (c : ApiCollector ι ρ) (sched : List Nat) (st : State ι ρ) : State ι ρ :=
  { runAsync c sched st with waited := true }

/-- The loop `for iterator.HasNext()` of `Execute`. The result is `some e` when the
body returns `e` (a failed `Fetch`), and `none` when the loop ends or breaks: the error
of `exec` is assigned to the `err` declared inside the body and is not seen outside. -/
def inputLoop (c : ApiCollector ι ρ) :
    List (Except Error ι) → State ι ρ → Option Error × State ι ρ
  | [], st => (none, st)
  | .error e :: _, st => (some e, st)
  | .ok input :: rest, st =>
    match exec c (some input) st with
    | (some _, st1) => (none, st1)
    | (none, st1) => inputLoop c rest st1

/-- Modelled from the spec: the database handle is not in the sources. The statement
`db.Table(table).Delete(&RawData{}, "params = ?", params)` deletes all rows whose
fingerprint equals the run's. -/
def purge (c : ApiCollector ι ρ) (st : State ι ρ) : State ι ρ :=
  { st with table := st.table.filter fun r => r.Params != c.params }

/-- The method `ApiCollector.Execute`, with the schedule the client follows during
`WaitAsync`. -/
def Execute (c : ApiCollector ι ρ) (sched : List Nat) (st : State ι ρ) :
    Option Error × State ι ρ :=
  match c.world.AutoMigrate with
  | some e => (some e, st)
  | none =>
    let r : Option Error × State ι ρ :=
      if !c.args.Incremental then
        match c.world.Delete with
        | some e => (some e, st)
        | none => (none, purge c st)
      else (none, st)
    match r with
    | (some e, st1) => (some e, st1)
    | (none, st1) =>
      match c.args.Input with
      | some iterator =>
        let st2 := SetProgress 0 (-1) st1
        match inputLoop c iterator st2 with
        | (some e, st3) => (some e, { st3 with closed := true })
        | (none, st3) =>
          let st4 := WaitAsync c sched st3
          (none, { st4 with closed := true })
      | none =>
        let r2 := exec c none st1
        let st3 := WaitAsync c sched r2.2
        (r2.1, st3)

end Collector

section Auxiliary

variable {ι ρ : Type}

/-- The pager a request is sent with: its own, or the default one. -/
def pagerOf (reqData : RequestData ι) : Pager :=
  match reqData.Pager with
  | some p => p
  | none => defaultPager

/-- The pager of the `k`-th request on stripe `i`: the initial pager of the stripe
(`k = 0`), updated once by `recursive` for each later request. -/
def stripeRequest (c : ApiCollector ι ρ) (i : Int) : Nat → Pager
  | 0 => stripePager c i
  | k + 1 => advancePager c (stripeRequest c i k)

/-- The state after `GetAsync` accepted a request. -/
def enqueue (f : Fetch ι ρ) (st : State ι ρ) : State ι ρ :=
  { st with fetched := st.fetched ++ [f], pending := st.pending ++ [f] }

/-- The state after `Create` stored a batch of rows. -/
def store (dd : List RawData) (st : State ι ρ) : State ι ρ :=
  { st with table := st.table ++ dd, inserted := st.inserted ++ dd }

/-- No dispatch fails: every URL renders, the query and header callbacks succeed and
the client accepts every request. -/
def NoDispatchError (c : ApiCollector ι ρ) : Prop :=
  (∀ pg input, ∃ u, c.urlTemplate pg input = .ok u) ∧
  (∀ q, c.args.Query = some q → ∀ rd, ∃ v, q rd = .ok v) ∧
  (∀ h, c.args.Header = some h → ∀ rd, ∃ v, h rd = .ok v) ∧
  (∀ u q h, c.world.GetAsync u q h = none)

/-- No bulk insert fails. -/
def NoCreateError (c : ApiCollector ι ρ) : Prop :=
  ∀ dd, c.world.Create dd = none

/-- The invariant of a striped run, on the pages fetched so far (`F`) and the pages of
the pending requests (`Q`): `C` is the concurrency, pages `1 ≤ p < P` are full, and a
full page is at most `B`. -/
structure PageInv (C B P : Int) (F Q : List Int) : Prop where
  sub : ∀ q ∈ Q, q ∈ F
  nodupF : F.Nodup
  nodupQ : Q.Nodup
  origin : ∀ p ∈ F, 1 ≤ p ∧ (p ≤ C ∨ (p - C ∈ F ∧ p - C ∉ Q ∧ p - C ≤ B))
  next : ∀ q ∈ F, q ∉ Q → q < P → q + C ∈ F
  first : ∀ p, 1 ≤ p → p ≤ C → p ∈ F

/-- The page numbers of the requests made so far. -/
def fetchedPages (st : State ι ρ) : List Int := st.fetched.map fun f => f.pager.Page

/-- The page numbers of the pending requests. -/
def pendingPages (st : State ι ρ) : List Int := st.pending.map fun f => f.pager.Page

/-- The server always answers with a body that parses; a page `1 ≤ p < P` is full, and
a full page is at most `B`. -/
def Answers (c : ApiCollector ι ρ) (B P : Int) : Prop :=
  ∀ pg input, ∃ res items, c.world.respond pg input = some res ∧
    c.args.ResponseParser res = .ok items ∧
    (1 ≤ pg.Page → pg.Page < P → c.args.PageSize ≤ (items.length : Int)) ∧
    (c.args.PageSize ≤ (items.length : Int) → pg.Page ≤ B)

/-- The invariant of a striped run: every pending request carries the handler of its
own stripe, and the pages satisfy `PageInv`. -/
structure StripeInv (c : ApiCollector ι ρ) (B P : Int) (st : State ι ρ) : Prop where
  shape : ∀ f ∈ st.pending, f.handler = .recursive f.pager f.input
  pages : PageInv c.args.Concurrency B P (fetchedPages st) (pendingPages st)
  known : ∀ f ∈ st.pending, f ∈ st.fetched
  stripes : ∀ f ∈ st.fetched, ∃ i k : Nat,
    (i : Int) < c.args.Concurrency ∧ f.pager = stripeRequest c (i : Int) k

/-- A response of the example server: the records of the body, the total number of
pages it announces and the URL of its request. -/
structure DemoResponse where
  items : List String
  totalPages : Int
  url : String

/-- An example server for a resource of `P` pages of `S` records, the last one with
`last` records, announcing `N` pages in total. -/
def demoRespond (S P last : Nat) (N : Int) (pg : Pager) (_ : Option String) :
    Option DemoResponse :=
  some { items := List.replicate
            (if pg.Page < P then S else if pg.Page = P then last else 0) "r"
         totalPages := N
         url := "/api" }

/-- An example world in which nothing fails; a driving record is its own JSON text. -/
def demoWorld (S P last : Nat) (N : Int) : World String DemoResponse :=
  { AutoMigrate := none
    Delete := none
    Create := fun _ => none
    GetAsync := fun _ _ _ => none
    respond := demoRespond S P last N
    requestUrl := fun res => res.url
    jsonMarshal := fun input => match input with
      | none => "null"
      | some x => x }

/-- An example collector without driving iterator, in full-refresh mode, using the
striped strategy with page size `S` and concurrency `C`. -/
def demoCollector (S C P last : Nat) (N : Int) : ApiCollector String DemoResponse :=
  { args :=
      { Query := none
        Header := none
        PageSize := S
        Incremental := false
        Input := none
        GetTotalPages := none
        Concurrency := C
        ResponseParser := fun res => .ok res.items }
    params := "F"
    urlTemplate := fun _ _ => .ok "/api"
    world := demoWorld S P last N }

/-- The extractor of the example collectors: the total announced by the response. -/
def demoTotalPages : Option (DemoResponse → Except Error Int) :=
  some fun res => .ok res.totalPages

/-- The deterministic paged server: it answers every request with a body that
parses; pages `1..P-1` hold exactly `PageSize` records, page `P` between one and
`PageSize` records, and every page after `P` none. -/
def PagedServer (c : ApiCollector ι ρ) (P : Int) : Prop :=
  ∀ pg input, ∃ res items, c.world.respond pg input = some res ∧
    c.args.ResponseParser res = .ok items ∧
    (1 ≤ pg.Page → pg.Page < P → (items.length : Int) = c.args.PageSize) ∧
    (pg.Page = P → 1 ≤ items.length ∧ (items.length : Int) ≤ c.args.PageSize) ∧
    (P < pg.Page → items.length = 0)

/-- Page `P` is short: every answer for it holds fewer than `PageSize` records. -/
def ShortLastPage (c : ApiCollector ι ρ) (P : Int) : Prop :=
  ∀ pg input res items, c.world.respond pg input = some res →
    c.args.ResponseParser res = .ok items → pg.Page = P →
    (items.length : Int) < c.args.PageSize

/-- The number of requests made for a page after `P`. -/
def overFetched (P : Int) (st : State ι ρ) : Nat :=
  ((fetchedPages st).filter fun p => P < p).length

/-- The example collector with the total-pages extractor configured. -/
def demoKnownTotal (S P last : Nat) (N : Int) : ApiCollector String DemoResponse :=
  { demoCollector S 1 P last N with
    args := { (demoCollector S 1 P last N).args with GetTotalPages := demoTotalPages } }

/-- The pages requested by a known-total run whose first response announces `N`
pages: page 1, then the pages `2..N`. -/
def knownTotalPages (N : Int) : List Int :=
  (List.range (max N 1).toNat).map fun (k : Nat) => (k : Int) + 1

/-- A state predicate kept by every elementary update the collector and the client
make: accepting a request, completing one, storing rows of the run, recording a handler
error, and the updates of the progress counter. -/
structure Stable (c : ApiCollector ι ρ) (I : State ι ρ → Prop) : Prop where
  enqueue : ∀ st f, I st → I (enqueue f st)
  dequeue : ∀ st i, I st → I { st with pending := st.pending.eraseIdx i }
  store : ∀ st dd, (∀ r ∈ dd, r.Params = c.params) → I st → I (store dd st)
  failed : ∀ st e, I st → I { st with handlerErrors := st.handlerErrors ++ [e] }
  inc : ∀ st, I st → I (IncProgress 1 st)
  setTotal : c.args.Input.isNone = true → ∀ st N, I st → I (SetProgress 1 N st)

/-- The table is made of the rows kept by the purge followed by the rows inserted by
this run, and every inserted row carries the fingerprint of the run. -/
def TableInv (c : ApiCollector ι ρ) (kept : List RawData) (st : State ι ρ) : Prop :=
  st.table = kept ++ st.inserted ∧ ∀ r ∈ st.inserted, r.Params = c.params

/-- A table with two rows of fingerprint `F` and one of fingerprint `G`. -/
def demoTable : List RawData :=
  [⟨"F", "old1", "/api", "null"⟩, ⟨"G", "other", "/api", "null"⟩, ⟨"F", "old2", "/api", "null"⟩]

/-- The property of the progress counter: done is at most total whenever total is not
negative. -/
def ProgressOk (p : Progress) : Prop := 0 ≤ p.total → p.done ≤ p.total

/-- Whether a handler is the closure of the first page. -/
def Handler.isFirstPage : Handler ι ρ → Bool
  | .firstPage _ _ => true
  | _ => false

/-- Whether a handler is the closure of one of the pages `2..totalPages`. -/
def Handler.isOtherPage : Handler ι ρ → Bool
  | .otherPage => true
  | _ => false

/-- The number of requests of a list whose handler is the first page's. -/
def firstCount (l : List (Fetch ι ρ)) : Nat := l.countP fun f => f.handler.isFirstPage

/-- The number of requests of a list whose handler is the one of the pages `2..N`. -/
def otherCount (l : List (Fetch ι ρ)) : Nat := l.countP fun f => f.handler.isOtherPage

/-- The state after `GetAsync` accepted a list of requests, one after the other. -/
def enqueueAll (fs : List (Fetch ι ρ)) (st : State ι ρ) : State ι ρ :=
  { st with fetched := st.fetched ++ fs, pending := st.pending ++ fs }

/-- The extractor carried by a first-page handler does not announce zero pages on the
response to the request of that handler. -/
def NotZeroOn (c : ApiCollector ι ρ) (f : Fetch ι ρ) : Prop :=
  ∀ g input, f.handler = .firstPage g input →
    ∀ res, c.world.respond f.pager f.input = some res → g res ≠ .ok 0

/-- When no driving iterator is configured and pagination is on, the total-pages
extractor does not announce zero pages on the response to the first page's request. -/
def FirstTotalNotZero (c : ApiCollector ι ρ) : Prop :=
  c.args.Input = none → 0 < c.args.PageSize → ∀ g, c.args.GetTotalPages = some g →
    ∀ res, c.world.respond defaultPager none = some res → g res ≠ .ok 0

/-- The invariant of the counter in a run without driving iterator. -/
structure ProgInv (c : ApiCollector ι ρ) (st : State ι ρ) : Prop where
  log : ∀ p ∈ st.progressLog, ProgressOk p
  cur : ProgressOk st.progress
  cnt : (firstCount st.pending ≤ 1 ∧ otherCount st.pending = 0) ∨
    (firstCount st.pending = 0 ∧
      (st.progress.total < 0 ∨
        st.progress.done + (otherCount st.pending : Int) ≤ st.progress.total))
  ext : ∀ f ∈ st.pending, NotZeroOn c f

/-- The invariant of the counter in a run with a driving iterator: the total stays
unknown. -/
def DrivenInv (st : State ι ρ) : Prop :=
  st.progress.total < 0 ∧ ∀ p ∈ st.progressLog, ProgressOk p

/-- The URL rendered for a pager and an input, when the template renders. -/
def urlOf (c : ApiCollector ι ρ) (pager : Pager) (input : Option ι) : String :=
  match generateUrl c pager input with
  | .ok u => u
  | .error _ => ""

/-- The request of a stripe for a pager: the one `fetchAsync` hands to the client for
`reqDataTemp` and `recursive(reqDataTemp)`. -/
def stripeFetch (c : ApiCollector ι ρ) (input : Option ι) (pager : Pager) : Fetch ι ρ :=
  ⟨urlOf c pager input, pager, input, .recursive pager input⟩

/-- The schedule in which the requests of stripe `i`, out of `C` stripes, complete `k`
times in a row: the first is number `i` in the queue, each later one is the last. -/
def stripeSchedule (C i : Nat) : Nat → List Nat
  | 0 => []
  | k + 1 => i :: List.replicate k (C - 1)

/-- The pagers of the requests made so far. -/
def fetchedPagers (st : State ι ρ) : List Pager := st.fetched.map fun f => f.pager

/-- The server answers the request for a pager with a full page. -/
def FullPage (c : ApiCollector ι ρ) (input : Option ι) (pager : Pager) : Prop :=
  ∃ res items, c.world.respond pager input = some res ∧
    c.args.ResponseParser res = .ok items ∧ c.args.PageSize ≤ (items.length : Int)

/-- An example collector driven by an iterator. -/
def demoDriven (c : ApiCollector String DemoResponse) (iterator : List (Except Error String)) :
    ApiCollector String DemoResponse :=
  { c with args := { c.args with Input := some iterator } }

/-- An example collector whose table migration fails. -/
def demoMigrateFails (c : ApiCollector String DemoResponse) :
    ApiCollector String DemoResponse :=
  { c with world := { c.world with AutoMigrate := some "migrate failed" } }

/-- An example collector whose purge fails. -/
def demoPurgeFails (c : ApiCollector String DemoResponse) :
    ApiCollector String DemoResponse :=
  { c with world := { c.world with Delete := some "purge failed" } }

/-- An example collector whose query callback fails for the driving record `bad`. -/
def demoQueryFails (c : ApiCollector String DemoResponse) :
    ApiCollector String DemoResponse :=
  { c with args := { c.args with
      Query := some fun rd => if rd.Input = some "bad" then .error "query failed" else .ok "" } }

end Auxiliary

section Frames

variable {ι ρ : Type}

theorem fetchAsync_cases (c : ApiCollector ι ρ) (rd : RequestData ι) (h : Handler ι ρ)
    (st : State ι ρ) :
    (∃ e, fetchAsync c rd h st = (some e, st)) ∨
    (∃ u, fetchAsync c rd h st = (none, enqueue ⟨u, pagerOf rd, rd.Input, h⟩ st)) := by
  unfold fetchAsync
  simp only []
  split
  · exact Or.inl ⟨_, rfl⟩
  · split
    · exact Or.inl ⟨_, rfl⟩
    · split
      · exact Or.inl ⟨_, rfl⟩
      · split
        · exact Or.inl ⟨_, rfl⟩
        · exact Or.inr ⟨_, rfl⟩

theorem fetchAsync_ok (c : ApiCollector ι ρ) (hd : NoDispatchError c) (rd : RequestData ι)
    (h : Handler ι ρ) (st : State ι ρ) :
    ∃ u, fetchAsync c rd h st = (none, enqueue ⟨u, pagerOf rd, rd.Input, h⟩ st) := by
  obtain ⟨h1, h2, h3, h4⟩ := hd
  obtain ⟨u, hu⟩ := h1 (pagerOf rd) rd.Input
  have hq : ∃ v, (match c.args.Query with
      | some query => query { rd with Pager := some (pagerOf rd) }
      | none => (.ok "" : Except Error String)) = .ok v := by
    cases hQ : c.args.Query with
    | none => exact ⟨_, rfl⟩
    | some q => exact h2 q hQ _
  have hh : ∃ v, (match c.args.Header with
      | some header => header { rd with Pager := some (pagerOf rd) }
      | none => (.ok "" : Except Error String)) = .ok v := by
    cases hH : c.args.Header with
    | none => exact ⟨_, rfl⟩
    | some q => exact h3 q hH _
  obtain ⟨q, hq⟩ := hq
  obtain ⟨hv, hh⟩ := hh
  refine ⟨u, ?_⟩
  unfold fetchAsync
  simp only []
  have hu' : generateUrl c (match rd.Pager with | some p => p | none => defaultPager) rd.Input
      = .ok u := hu
  rw [hu']
  simp only []
  unfold pagerOf at hq hh
  rw [hq]
  simp only []
  rw [hh]
  simp only []
  rw [h4]
  rfl

theorem saveRawData_cases (c : ApiCollector ι ρ) (res : ρ) (input : Option ι)
    (st : State ι ρ) :
    (saveRawData c res input st).2 = st ∨
    ∃ dd, (∀ r ∈ dd, r.Params = c.params ∧ r.Input = c.world.jsonMarshal input) ∧
      (saveRawData c res input st).2 = store dd st := by
  unfold saveRawData
  split
  · exact Or.inl rfl
  · simp only []
    split
    · exact Or.inl rfl
    · split
      · exact Or.inl rfl
      · refine Or.inr ⟨_, ?_, rfl⟩
        intro r hr
        simp only [List.mem_map] at hr
        obtain ⟨m, _, rfl⟩ := hr
        exact ⟨rfl, rfl⟩

theorem saveRawData_count (c : ApiCollector ι ρ) (hs : NoCreateError c) (res : ρ)
    (items : List String) (hp : c.args.ResponseParser res = .ok items) (input : Option ι)
    (st : State ι ρ) :
    (saveRawData c res input st).1 = ((items.length : Int), none) := by
  unfold saveRawData
  rw [hp]
  simp only []
  split
  · rename_i h0; rw [h0]; rfl
  · rw [hs]; simp

end Frames

section Pages

theorem PageInv.stop {C B P : Int} {F Q1 Q2 : List Int} {q : Int}
    (h : PageInv C B P F (Q1 ++ q :: Q2)) (hq : ¬ q < P) :
    PageInv C B P F (Q1 ++ Q2) where
  sub := fun x hx => h.sub x (by
    rcases List.mem_append.mp hx with hx | hx
    · exact List.mem_append.mpr (Or.inl hx)
    · exact List.mem_append.mpr (Or.inr (List.mem_cons_of_mem _ hx)))
  nodupF := h.nodupF
  nodupQ := by
    have := h.nodupQ
    rw [List.nodup_append] at this ⊢
    obtain ⟨h1, h2, h3⟩ := this
    refine ⟨h1, (List.nodup_cons.mp h2).2, ?_⟩
    intro a ha hb
    exact h3 ha (List.mem_cons_of_mem _ hb)
  origin := fun p hp => by
    obtain ⟨h1, h2⟩ := h.origin p hp
    refine ⟨h1, ?_⟩
    rcases h2 with h2 | ⟨h2, h3, h4⟩
    · exact Or.inl h2
    · refine Or.inr ⟨h2, ?_, h4⟩
      intro hx
      apply h3
      rcases List.mem_append.mp hx with hx | hx
      · exact List.mem_append.mpr (Or.inl hx)
      · exact List.mem_append.mpr (Or.inr (List.mem_cons_of_mem _ hx))
  next := fun x hx hxQ hxP => by
    apply h.next x hx _ hxP
    intro hm
    rcases List.mem_append.mp hm with hm | hm
    · exact hxQ (List.mem_append.mpr (Or.inl hm))
    · rcases List.mem_cons.mp hm with hm | hm
      · subst hm; exact hq hxP
      · exact hxQ (List.mem_append.mpr (Or.inr hm))
  first := h.first

theorem PageInv.fresh {C B P : Int} {F Q1 Q2 : List Int} {q : Int}
    (h : PageInv C B P F (Q1 ++ q :: Q2)) : q + C ∉ F := by
  intro hm
  have hqQ : q ∈ Q1 ++ q :: Q2 := List.mem_append.mpr (Or.inr (List.mem_cons_self _ _))
  have hq1 := (h.origin q (h.sub q hqQ)).1
  obtain ⟨_, h2⟩ := h.origin _ hm
  rcases h2 with h2 | ⟨_, h3, _⟩
  · omega
  · apply h3
    rw [add_sub_cancel_right]
    exact hqQ

theorem PageInv.continue {C B P : Int} {F Q1 Q2 : List Int} {q : Int}
    (h : PageInv C B P F (Q1 ++ q :: Q2)) (hC : 1 ≤ C) (hq : q ≤ B) :
    PageInv C B P (F ++ [q + C]) (Q1 ++ Q2 ++ [q + C]) := by
  have hfresh := h.fresh
  have hqQ : q ∈ Q1 ++ q :: Q2 := List.mem_append.mpr (Or.inr (List.mem_cons_self _ _))
  have hstopQ : ∀ x, x ∈ Q1 ++ Q2 → x ∈ Q1 ++ q :: Q2 := by
    intro x hx
    rcases List.mem_append.mp hx with hx | hx
    · exact List.mem_append.mpr (Or.inl hx)
    · exact List.mem_append.mpr (Or.inr (List.mem_cons_of_mem _ hx))
  have hndQ : (Q1 ++ Q2).Nodup := by
    have := h.nodupQ
    rw [List.nodup_append] at this ⊢
    obtain ⟨h1, h2, h3⟩ := this
    refine ⟨h1, (List.nodup_cons.mp h2).2, ?_⟩
    intro a ha hb
    exact h3 ha (List.mem_cons_of_mem _ hb)
  have hqnot : q ∉ Q1 ++ Q2 := by
    have := h.nodupQ
    rw [List.nodup_append] at this
    obtain ⟨_, h2, h3⟩ := this
    intro hx
    rcases List.mem_append.mp hx with hx | hx
    · exact h3 hx (List.mem_cons_self _ _)
    · exact (List.nodup_cons.mp h2).1 hx
  constructor
  · intro x hx
    rcases List.mem_append.mp hx with hx | hx
    · exact List.mem_append.mpr (Or.inl (h.sub x (hstopQ x hx)))
    · exact List.mem_append.mpr (Or.inr hx)
  · rw [List.nodup_append]
    refine ⟨h.nodupF, List.nodup_singleton _, ?_⟩
    intro a ha hb
    rw [List.mem_singleton] at hb
    subst hb
    exact hfresh ha
  · rw [List.nodup_append]
    refine ⟨hndQ, List.nodup_singleton _, ?_⟩
    intro a ha hb
    rw [List.mem_singleton] at hb
    subst hb
    exact hfresh (h.sub _ (hstopQ _ ha))
  · intro p hp
    rcases List.mem_append.mp hp with hp | hp
    · obtain ⟨h1, h2⟩ := h.origin p hp
      refine ⟨h1, ?_⟩
      rcases h2 with h2 | ⟨h2, h3, h4⟩
      · exact Or.inl h2
      · refine Or.inr ⟨List.mem_append.mpr (Or.inl h2), ?_, h4⟩
        intro hx
        rcases List.mem_append.mp hx with hx | hx
        · exact h3 (hstopQ _ hx)
        · rw [List.mem_singleton] at hx
          rw [hx] at h2
          exact hfresh h2
    · rw [List.mem_singleton] at hp
      subst hp
      have hq1 := (h.origin q (h.sub q hqQ)).1
      refine ⟨by omega, Or.inr ?_⟩
      rw [add_sub_cancel_right]
      refine ⟨List.mem_append.mpr (Or.inl (h.sub q hqQ)), ?_, hq⟩
      intro hx
      rcases List.mem_append.mp hx with hx | hx
      · exact hqnot hx
      · rw [List.mem_singleton] at hx
        omega
  · intro x hx hxQ hxP
    rcases List.mem_append.mp hx with hx | hx
    · by_cases hxq : x = q
      · subst hxq
        exact List.mem_append.mpr (Or.inr (List.mem_singleton.mpr rfl))
      · apply List.mem_append.mpr
        left
        apply h.next x hx _ hxP
        intro hm
        rcases List.mem_append.mp hm with hm | hm
        · exact hxQ (List.mem_append.mpr (Or.inl (List.mem_append.mpr (Or.inl hm))))
        · rcases List.mem_cons.mp hm with hm | hm
          · exact hxq hm
          · exact hxQ (List.mem_append.mpr (Or.inl (List.mem_append.mpr (Or.inr hm))))
    · exfalso
      exact hxQ (List.mem_append.mpr (Or.inr hx))
  · intro p h1 h2
    exact List.mem_append.mpr (Or.inl (h.first p h1 h2))

/-- A duplicate-free list of integers between `a` and `b` has at most `b + 1 - a`
elements. -/
theorem length_le_of_nodup_of_bounds (l : List Int) (a b : Int) (hl : l.Nodup)
    (hb : ∀ x ∈ l, a ≤ x ∧ x ≤ b) : l.length ≤ (b + 1 - a).toNat := by
  rw [← List.toFinset_card_of_nodup hl, ← Int.card_Icc]
  apply Finset.card_le_card
  intro x hx
  rw [List.mem_toFinset] at hx
  exact Finset.mem_Icc.mpr (hb x hx)

theorem PageInv.bounds {C B P : Int} {F Q : List Int} (h : PageInv C B P F Q)
    (hB : 0 ≤ B) : ∀ p ∈ F, 1 ≤ p ∧ p ≤ B + C := by
  intro p hp
  obtain ⟨h1, h2⟩ := h.origin p hp
  refine ⟨h1, ?_⟩
  rcases h2 with h2 | ⟨_, _, h4⟩ <;> omega

theorem PageInv.length_le {C B P : Int} {F Q : List Int} (h : PageInv C B P F Q)
    (hB : 0 ≤ B) : F.length ≤ (B + C).toNat := by
  have := length_le_of_nodup_of_bounds F 1 (B + C) h.nodupF (h.bounds hB)
  simpa using this

/-- When no request is pending, every page up to `P` was fetched. -/
theorem PageInv.covered {C B P : Int} {F : List Int} (h : PageInv C B P F [])
    (hC : 1 ≤ C) : ∀ p, 1 ≤ p → p ≤ P → p ∈ F := by
  have key : ∀ n : Nat, ∀ p : Int, 1 ≤ p → p ≤ P → p ≤ n → p ∈ F := by
    intro n
    induction n with
    | zero => intro p h1 _ h3; simp at h3; omega
    | succ n ih =>
      intro p h1 h2 h3
      by_cases hp : p ≤ C
      · exact h.first p h1 hp
      · have hm := ih (p - C) (by omega) (by omega) (by push_cast at h3; omega)
        have := h.next (p - C) hm (List.not_mem_nil _) (by omega)
        simpa using this
  intro p h1 h2
  exact key p.toNat p h1 h2 (by omega)

end Pages

section Striped

variable {ι ρ : Type}

theorem saveRawData_frame (c : ApiCollector ι ρ) (res : ρ) (input : Option ι)
    (st : State ι ρ) :
    (saveRawData c res input st).2.fetched = st.fetched ∧
    (saveRawData c res input st).2.pending = st.pending ∧
    (saveRawData c res input st).2.progress = st.progress ∧
    (saveRawData c res input st).2.progressLog = st.progressLog := by
  rcases saveRawData_cases c res input st with h | ⟨dd, _, h⟩ <;> rw [h] <;> simp [store]

theorem split_of_getElem? {α : Type} (l : List α) (i : Nat) (a : α) (h : l[i]? = some a) :
    ∃ l1 l2, l = l1 ++ a :: l2 ∧ l.eraseIdx i = l1 ++ l2 := by
  induction l generalizing i with
  | nil => simp at h
  | cons x xs ih =>
    cases i with
    | zero =>
      simp at h
      subst h
      exact ⟨[], xs, rfl, rfl⟩
    | succ i =>
      simp at h
      obtain ⟨l1, l2, h1, h2⟩ := ih i h
      refine ⟨x :: l1, l2, ?_, ?_⟩
      · simp [h1]
      · simp [h2]

theorem deliver_striped (c : ApiCollector ι ρ) (B P : Int) (hd : NoDispatchError c)
    (hs : NoCreateError c) (hC : 1 ≤ c.args.Concurrency) (ha : Answers c B P)
    (st : State ι ρ) (Q1 Q2 : List (Fetch ι ρ)) (f : Fetch ι ρ)
    (hpend : st.pending = Q1 ++ f :: Q2) (hinv : StripeInv c B P st) :
    StripeInv c B P (deliver c f { st with pending := Q1 ++ Q2 }) ∧
    (((deliver c f { st with pending := Q1 ++ Q2 }).fetched.length : Int)
        - (deliver c f { st with pending := Q1 ++ Q2 }).pending.length
      = (st.fetched.length : Int) - st.pending.length + 1) := by
  obtain ⟨res, items, hres, hparse, hfull, hbound⟩ := ha f.pager f.input
  have hfmem : f ∈ st.pending := by rw [hpend]; simp
  have hshape := hinv.shape f hfmem
  have hpages := hinv.pages
  have hQ : pendingPages st
      = (Q1.map fun f => f.pager.Page) ++ f.pager.Page :: (Q2.map fun f => f.pager.Page) := by
    simp [pendingPages, hpend]
  rw [hQ] at hpages
  have hf1 : 1 ≤ f.pager.Page :=
    (hpages.origin _ (hpages.sub _ (by simp))).1
  have hold : ∀ g ∈ Q1 ++ Q2, g ∈ st.pending := by
    intro g hg
    rw [hpend]
    rcases List.mem_append.mp hg with hg | hg
    · exact List.mem_append.mpr (Or.inl hg)
    · exact List.mem_append.mpr (Or.inr (List.mem_cons_of_mem _ hg))
  obtain ⟨hfr1, hfr2, _, _⟩ := saveRawData_frame c res f.input { st with pending := Q1 ++ Q2 }
  have hcount := saveRawData_count c hs res items hparse f.input { st with pending := Q1 ++ Q2 }
  have hsv : saveRawData c res f.input { st with pending := Q1 ++ Q2 }
      = (((items.length : Int), none),
          (saveRawData c res f.input { st with pending := Q1 ++ Q2 }).2) :=
    Prod.ext hcount rfl
  generalize (saveRawData c res f.input { st with pending := Q1 ++ Q2 }).2 = st1 at hsv hfr1 hfr2
  simp only [] at hfr1 hfr2
  unfold deliver
  rw [hres, hshape]
  simp only [runHandler]
  rw [hsv]
  simp only []
  by_cases hlt : (items.length : Int) < c.args.PageSize
  · rw [if_pos hlt]
    simp only []
    refine ⟨⟨?_, ?_, ?_, ?_⟩, ?_⟩
    · intro g hg
      rw [hfr2] at hg
      exact hinv.shape g (hold g hg)
    · have hstop := hpages.stop (q := f.pager.Page) (by
        intro hlt2
        have := hfull hf1 hlt2
        omega)
      simpa [fetchedPages, pendingPages, hfr1, hfr2] using hstop
    · intro g hg
      rw [hfr2] at hg
      rw [hfr1]
      exact hinv.known g (hold g hg)
    · rw [hfr1]
      exact hinv.stripes
    · rw [hfr1, hfr2, hpend]
      simp only [List.length_append, List.length_cons]
      push_cast
      ring
  · rw [if_neg hlt]
    obtain ⟨u, hu⟩ := fetchAsync_ok c hd ⟨some (advancePager c f.pager), f.input⟩
      (.recursive (advancePager c f.pager) f.input) st1
    rw [hu]
    simp only []
    refine ⟨⟨?_, ?_, ?_, ?_⟩, ?_⟩
    · intro g hg
      simp only [enqueue, hfr2] at hg
      rcases List.mem_append.mp hg with hg | hg
      · exact hinv.shape g (hold g hg)
      · rw [List.mem_singleton] at hg
        subst hg
        rfl
    · have hcont := hpages.continue hC (hbound (by omega))
      simpa [fetchedPages, pendingPages, enqueue, hfr1, hfr2, pagerOf, advancePager]
        using hcont
    · intro g hg
      simp only [enqueue, hfr1, hfr2] at hg ⊢
      rcases List.mem_append.mp hg with hg | hg
      · exact List.mem_append.mpr (Or.inl (hinv.known g (hold g hg)))
      · exact List.mem_append.mpr (Or.inr hg)
    · intro g hg
      simp only [enqueue, hfr1] at hg
      rcases List.mem_append.mp hg with hg | hg
      · exact hinv.stripes g hg
      · rw [List.mem_singleton] at hg
        subst hg
        obtain ⟨i, k, hi, hk⟩ := hinv.stripes f (hinv.known f hfmem)
        refine ⟨i, k + 1, hi, ?_⟩
        simp only [pagerOf, stripeRequest, hk]
    · simp only [enqueue, hfr1, hfr2, hpend]
      simp only [List.length_append, List.length_cons, List.length_nil]
      push_cast
      ring

end Striped

section StripedRun

variable {ι ρ : Type}

theorem stepAsync_of_nil (c : ApiCollector ι ρ) (pick : Nat) (st : State ι ρ)
    (h : st.pending = []) : stepAsync c pick st = st := by
  unfold stepAsync
  rw [h]
  rfl

theorem runAsync_of_nil (c : ApiCollector ι ρ) (sched : List Nat) (st : State ι ρ)
    (h : st.pending = []) : runAsync c sched st = st := by
  induction sched with
  | nil => rfl
  | cons pick rest ih =>
    simp only [runAsync, List.foldl_cons] at ih ⊢
    rw [stepAsync_of_nil c pick st h]
    exact ih

theorem stepAsync_striped (c : ApiCollector ι ρ) (B P : Int) (hd : NoDispatchError c)
    (hs : NoCreateError c) (hC : 1 ≤ c.args.Concurrency) (ha : Answers c B P)
    (pick : Nat) (st : State ι ρ) (hinv : StripeInv c B P st) :
    StripeInv c B P (stepAsync c pick st) ∧
    (st.pending = [] ∨
      (((stepAsync c pick st).fetched.length : Int) - (stepAsync c pick st).pending.length
        = (st.fetched.length : Int) - st.pending.length + 1)) := by
  by_cases hnil : st.pending = []
  · rw [stepAsync_of_nil c pick st hnil]
    exact ⟨hinv, Or.inl hnil⟩
  · have hpos : 0 < st.pending.length := List.length_pos.mpr hnil
    have hlt : pick % st.pending.length < st.pending.length := Nat.mod_lt _ hpos
    have hget : st.pending[pick % st.pending.length]?
        = some (st.pending[pick % st.pending.length]) := List.getElem?_eq_getElem hlt
    obtain ⟨Q1, Q2, h1, h2⟩ := split_of_getElem? _ _ _ hget
    unfold stepAsync
    rw [hget]
    simp only []
    rw [h2]
    have := deliver_striped c B P hd hs hC ha st Q1 Q2 _ h1 hinv
    exact ⟨this.1, Or.inr this.2⟩

theorem runAsync_striped (c : ApiCollector ι ρ) (B P : Int) (hd : NoDispatchError c)
    (hs : NoCreateError c) (hC : 1 ≤ c.args.Concurrency) (ha : Answers c B P)
    (sched : List Nat) (st : State ι ρ) (hinv : StripeInv c B P st) :
    StripeInv c B P (runAsync c sched st) ∧
    ((runAsync c sched st).pending = [] ∨
      (((runAsync c sched st).fetched.length : Int) - (runAsync c sched st).pending.length
        = (st.fetched.length : Int) - st.pending.length + sched.length)) := by
  induction sched generalizing st with
  | nil => exact ⟨hinv, Or.inr (by simp [runAsync])⟩
  | cons pick rest ih =>
    obtain ⟨hinv1, hstep⟩ := stepAsync_striped c B P hd hs hC ha pick st hinv
    have hrun : runAsync c (pick :: rest) st = runAsync c rest (stepAsync c pick st) := rfl
    rw [hrun]
    obtain ⟨hinv2, hrest⟩ := ih (stepAsync c pick st) hinv1
    refine ⟨hinv2, ?_⟩
    rcases hstep with hnil | hstep
    · left
      rw [stepAsync_of_nil c pick st hnil, runAsync_of_nil c rest st hnil]
      exact hnil
    · rcases hrest with hrest | hrest
      · exact Or.inl hrest
      · right
        rw [hrest, hstep]
        simp only [List.length_cons]
        push_cast
        ring

theorem stripesLoop_ok (c : ApiCollector ι ρ) (hd : NoDispatchError c) (input : Option ι)
    (l : List Nat) (st : State ι ρ) :
    ∃ fs : List (Fetch ι ρ),
      stripesLoop c input l st
        = (none, { st with fetched := st.fetched ++ fs, pending := st.pending ++ fs }) ∧
      (fs.map fun f => f.pager.Page) = l.map (fun (i : Nat) => (i : Int) + 1) ∧
      (∀ f ∈ fs, f.handler = .recursive f.pager f.input) ∧
      ∀ f ∈ fs, ∃ i ∈ l, f.pager = stripePager c (i : Int) := by
  induction l generalizing st with
  | nil => exact ⟨[], by simp [stripesLoop], rfl, by simp, by simp⟩
  | cons i rest ih =>
    obtain ⟨u, hu⟩ := fetchAsync_ok c hd ⟨some (stripePager c (i : Int)), input⟩
      (.recursive (stripePager c (i : Int)) input) st
    obtain ⟨fs, h1, h2, h3, h4⟩ := ih (enqueue
      ⟨u, pagerOf ⟨some (stripePager c (i : Int)), input⟩, input,
        .recursive (stripePager c (i : Int)) input⟩ st)
    refine ⟨⟨u, stripePager c (i : Int), input, .recursive (stripePager c (i : Int)) input⟩
      :: fs, ?_, ?_, ?_, ?_⟩
    · simp only [stripesLoop]
      rw [hu]
      simp only []
      rw [h1]
      simp [enqueue, pagerOf]
    · simp [h2, stripePager]
    · intro f hf
      rcases List.mem_cons.mp hf with hf | hf
      · subst hf; rfl
      · exact h3 f hf
    · intro f hf
      rcases List.mem_cons.mp hf with hf | hf
      · subst hf
        exact ⟨i, List.mem_cons_self _ _, rfl⟩
      · obtain ⟨j, hj, hp⟩ := h4 f hf
        exact ⟨j, List.mem_cons_of_mem _ hj, hp⟩

theorem stripes_pageInv (C B P : Int) :
    PageInv C B P ((List.range C.toNat).map fun (i : Nat) => (i : Int) + 1)
      ((List.range C.toNat).map fun (i : Nat) => (i : Int) + 1) where
  sub := fun _ h => h
  nodupF := by
    apply List.Nodup.map _ (List.nodup_range _)
    intro a b h
    simpa using h
  nodupQ := by
    apply List.Nodup.map _ (List.nodup_range _)
    intro a b h
    simpa using h
  origin := by
    intro p hp
    simp only [List.mem_map, List.mem_range] at hp
    obtain ⟨i, hi, rfl⟩ := hp
    omega
  next := fun q hq hnq _ => absurd hq hnq
  first := by
    intro p h1 h2
    simp only [List.mem_map, List.mem_range]
    exact ⟨(p - 1).toNat, by omega, by omega⟩

/-- The state after the striped `fetchPagesAsync` satisfies the invariant, and as many
requests are pending as were made. -/
theorem fetchPagesAsync_striped (c : ApiCollector ι ρ) (B P : Int)
    (hd : NoDispatchError c) (hmode : c.args.GetTotalPages = none)
    (reqData : RequestData ι) (table : List RawData) (progress : Progress) :
    (fetchPagesAsync c reqData (State.init table progress)).1 = none ∧
    StripeInv c B P (fetchPagesAsync c reqData (State.init table progress)).2 ∧
    (fetchPagesAsync c reqData (State.init table progress)).2.fetched.length
      = (fetchPagesAsync c reqData (State.init table progress)).2.pending.length := by
  obtain ⟨fs, h1, h2, h3, h4⟩ := stripesLoop_ok c hd reqData.Input
    (List.range c.args.Concurrency.toNat) (State.init table progress)
  have h5 : ∀ f ∈ fs, ∃ i k : Nat,
      (i : Int) < c.args.Concurrency ∧ f.pager = stripeRequest c (i : Int) k := by
    intro f hf
    obtain ⟨i, hi, hp⟩ := h4 f hf
    rw [List.mem_range] at hi
    exact ⟨i, 0, by omega, hp⟩
  have hinv := stripes_pageInv c.args.Concurrency B P
  rw [← h2] at hinv
  unfold fetchPagesAsync
  rw [hmode]
  simp only []
  rw [h1]
  simp only []
  cases c.args.Input.isSome
  · refine ⟨by simp, ⟨?_, ?_, ?_, ?_⟩, ?_⟩
    · simpa [State.init] using h3
    · simpa [State.init, fetchedPages, pendingPages] using hinv
    · simp [State.init]
    · simpa [State.init] using h5
    · simp [State.init]
  · refine ⟨by simp, ⟨?_, ?_, ?_, ?_⟩, ?_⟩
    · simpa [State.init, IncProgress] using h3
    · simpa [State.init, fetchedPages, pendingPages, IncProgress] using hinv
    · simp [State.init, IncProgress]
    · simpa [State.init, IncProgress] using h5
    · simp [State.init, IncProgress]

/-- A striped run to quiescence: the invariant holds at the end and nothing is
pending. -/
theorem striped_run (c : ApiCollector ι ρ) (B P : Int) (hB : 0 ≤ B)
    (hC : 1 ≤ c.args.Concurrency) (hd : NoDispatchError c) (hs : NoCreateError c)
    (hmode : c.args.GetTotalPages = none) (ha : Answers c B P)
    (reqData : RequestData ι) (table : List RawData) (progress : Progress)
    (sched : List Nat) (hlen : (B + c.args.Concurrency).toNat ≤ sched.length) :
    (fetchPagesAsync c reqData (State.init table progress)).1 = none ∧
    (WaitAsync c sched (fetchPagesAsync c reqData (State.init table progress)).2).pending = [] ∧
    PageInv c.args.Concurrency B P
      (fetchedPages (WaitAsync c sched (fetchPagesAsync c reqData (State.init table progress)).2))
      [] ∧
    ∀ f ∈ (WaitAsync c sched (fetchPagesAsync c reqData (State.init table progress)).2).fetched,
      ∃ i k : Nat, (i : Int) < c.args.Concurrency ∧ f.pager = stripeRequest c (i : Int) k := by
  obtain ⟨h1, h2, h3⟩ := fetchPagesAsync_striped c B P hd hmode reqData table progress
  obtain ⟨h4, h5⟩ := runAsync_striped c B P hd hs hC ha sched _ h2
  have hle := h4.pages.length_le hB
  have hnil : (runAsync c sched (fetchPagesAsync c reqData (State.init table progress)).2).pending
      = [] := by
    rcases h5 with h5 | h5
    · exact h5
    · apply List.eq_nil_of_length_eq_zero
      simp only [fetchedPages, List.length_map] at hle
      have h6 : ((B + c.args.Concurrency).toNat : Int) ≤ sched.length := by exact_mod_cast hlen
      have h7 : (((runAsync c sched (fetchPagesAsync c reqData
          (State.init table progress)).2).fetched.length : Int))
          ≤ ((B + c.args.Concurrency).toNat : Int) := by exact_mod_cast hle
      omega
  refine ⟨h1, hnil, ?_, h4.stripes⟩
  have := h4.pages
  simp only [pendingPages, hnil, List.map_nil] at this
  exact this

end StripedRun

section StripedClaims

variable {ι ρ : Type}

theorem PagedServer.answers {c : ApiCollector ι ρ} {P : Int} (h : PagedServer c P)
    (hS : 1 ≤ c.args.PageSize) : Answers c P P := by
  intro pg input
  obtain ⟨res, items, h1, h2, h3, _, h5⟩ := h pg input
  refine ⟨res, items, h1, h2, fun a b => le_of_eq (h3 a b).symm, ?_⟩
  intro hfull
  by_contra hgt
  have := h5 (by omega)
  rw [this] at hfull
  simp at hfull
  omega

theorem PagedServer.answers_short {c : ApiCollector ι ρ} {P : Int} (h : PagedServer c P)
    (hS : 1 ≤ c.args.PageSize) (hshort : ShortLastPage c P) : Answers c (P - 1) P := by
  intro pg input
  obtain ⟨res, items, h1, h2, h3, _, h5⟩ := h pg input
  refine ⟨res, items, h1, h2, fun a b => le_of_eq (h3 a b).symm, ?_⟩
  intro hfull
  by_contra hgt
  by_cases hP : pg.Page = P
  · have := hshort pg input res items h1 h2 hP
    omega
  · have := h5 (by omega)
    rw [this] at hfull
    simp at hfull
    omega

theorem demo_noDispatchError (S C P last : Nat) (N : Int) :
    NoDispatchError (demoCollector S C P last N) :=
  ⟨fun _ _ => ⟨_, rfl⟩, fun _ h => by simp [demoCollector] at h,
    fun _ h => by simp [demoCollector] at h, fun _ _ _ => rfl⟩

theorem demo_noCreateError (S C P last : Nat) (N : Int) :
    NoCreateError (demoCollector S C P last N) := fun _ => rfl

theorem demo_pagedServer (S C P last : Nat) (N : Int) (h1 : 1 ≤ last) (h2 : last ≤ S) :
    PagedServer (demoCollector S C P last N) P := by
  intro pg input
  refine ⟨_, _, rfl, rfl, ?_, ?_, ?_⟩
  · intro _ hlt
    simp [demoCollector, hlt]
  · intro he
    simp [demoCollector, he, h1, h2]
  · intro hgt
    have h3 : ¬ pg.Page < (P : Int) := by omega
    have h4 : ¬ pg.Page = (P : Int) := by omega
    simp [h3, h4]

theorem PageInv.overfetch_le {C B P : Int} {F : List Int} (h : PageInv C B P F [])
    (hB : 0 ≤ B) : ((F.filter fun p => P < p).length : Int) ≤ max (B + C - P) 0 := by
  have hb : ∀ x ∈ F.filter (fun p => P < p), P + 1 ≤ x ∧ x ≤ B + C := by
    intro x hx
    rw [List.mem_filter] at hx
    have := h.bounds hB x hx.1
    have h2 : P < x := by simpa using hx.2
    omega
  have := length_le_of_nodup_of_bounds _ (P + 1) (B + C) (h.nodupF.filter _) hb
  omega

/-- C1. Striped pagination (no total-pages extractor) fetches every page of `[1, P]`
exactly once: against the deterministic paged server, with no dispatch or handler
error, after `fetchPagesAsync` and the barrier (whatever the order in which the
requests complete, given at least `P + Concurrency` completions) no request is pending
and each page `1 ≤ p ≤ P` occurs exactly once among the requests made. -/
theorem striped_covers_each_page_once (c : ApiCollector ι ρ) (P : Int)
    (hS : 1 ≤ c.args.PageSize) (hC : 1 ≤ c.args.Concurrency) (hP : 1 ≤ P)
    (hmode : c.args.GetTotalPages = none) (hd : NoDispatchError c) (hs : NoCreateError c)
    (hsrv : PagedServer c P) (reqData : RequestData ι) (table : List RawData)
    (progress : Progress) (sched : List Nat)
    (hlen : (P + c.args.Concurrency).toNat ≤ sched.length) :
    (fetchPagesAsync c reqData (State.init table progress)).1 = none ∧
    (WaitAsync c sched (fetchPagesAsync c reqData (State.init table progress)).2).pending = [] ∧
    ∀ p : Int, 1 ≤ p → p ≤ P →
      (fetchedPages (WaitAsync c sched
        (fetchPagesAsync c reqData (State.init table progress)).2)).count p = 1 := by
  obtain ⟨h1, h2, h3, _⟩ := striped_run c P P (by omega) hC hd hs hmode (hsrv.answers hS)
    reqData table progress sched hlen
  exact ⟨h1, h2, fun p hp1 hp2 =>
    List.count_eq_one_of_mem h3.nodupF (h3.covered hC p hp1 hp2)⟩

/-- Every request of a striped run is the `k`-th request of a stripe `i` below the
concurrency, sent with the pager `stripeRequest c i k`. -/
theorem striped_requests_follow_stripes (c : ApiCollector ι ρ) (P : Int)
    (hS : 1 ≤ c.args.PageSize) (hC : 1 ≤ c.args.Concurrency) (hP : 1 ≤ P)
    (hmode : c.args.GetTotalPages = none) (hd : NoDispatchError c) (hs : NoCreateError c)
    (hsrv : PagedServer c P) (reqData : RequestData ι) (table : List RawData)
    (progress : Progress) (sched : List Nat)
    (hlen : (P + c.args.Concurrency).toNat ≤ sched.length) :
    ∀ f ∈ (WaitAsync c sched (fetchPagesAsync c reqData (State.init table progress)).2).fetched,
      ∃ i k : Nat, (i : Int) < c.args.Concurrency ∧ f.pager = stripeRequest c (i : Int) k :=
  (striped_run c P P (by omega) hC hd hs hmode (hsrv.answers hS)
    reqData table progress sched hlen).2.2.2

/-- C1 on an example: page size 2, concurrency 2, three pages, the last with one
record. -/
theorem striped_covers_each_page_once_witness :
    (WaitAsync (demoCollector 2 2 3 1 0) [0, 1, 0, 1, 0]
        (fetchPagesAsync (demoCollector 2 2 3 1 0) ⟨none, none⟩
          (State.init [] ⟨0, 0⟩)).2).pending = [] ∧
    ∀ p : Int, 1 ≤ p → p ≤ 3 →
      (fetchedPages (WaitAsync (demoCollector 2 2 3 1 0) [0, 1, 0, 1, 0]
        (fetchPagesAsync (demoCollector 2 2 3 1 0) ⟨none, none⟩
          (State.init [] ⟨0, 0⟩)).2)).count p = 1 :=
  (striped_covers_each_page_once (demoCollector 2 2 3 1 0) 3 (by decide) (by decide)
    (by decide) rfl (demo_noDispatchError 2 2 3 1 0) (demo_noCreateError 2 2 3 1 0)
    (demo_pagedServer 2 2 3 1 0 (by decide) (by decide)) ⟨none, none⟩ [] ⟨0, 0⟩
    [0, 1, 0, 1, 0] (by decide)).2

/-- C2, as stated, fails: with page size 1, concurrency 1 and a single page holding one
record, the hypotheses of the claim hold, the run ends, and one page after `P = 1` was
requested, more than `Concurrency - 1 = 0`. -/
theorem striped_overfetch_counterexample :
    PagedServer (demoCollector 1 1 1 1 0) 1 ∧
    NoDispatchError (demoCollector 1 1 1 1 0) ∧ NoCreateError (demoCollector 1 1 1 1 0) ∧
    (WaitAsync (demoCollector 1 1 1 1 0) [0, 0]
        (fetchPagesAsync (demoCollector 1 1 1 1 0) ⟨none, none⟩
          (State.init [] ⟨0, 0⟩)).2).pending = [] ∧
    fetchedPages (WaitAsync (demoCollector 1 1 1 1 0) [0, 0]
        (fetchPagesAsync (demoCollector 1 1 1 1 0) ⟨none, none⟩
          (State.init [] ⟨0, 0⟩)).2) = [1, 2] ∧
    ¬ ((overFetched 1 (WaitAsync (demoCollector 1 1 1 1 0) [0, 0]
        (fetchPagesAsync (demoCollector 1 1 1 1 0) ⟨none, none⟩
          (State.init [] ⟨0, 0⟩)).2) : Int)
        ≤ (demoCollector 1 1 1 1 0).args.Concurrency - 1) :=
  ⟨demo_pagedServer 1 1 1 1 0 (by decide) (by decide), demo_noDispatchError 1 1 1 1 0,
    demo_noCreateError 1 1 1 1 0, rfl, by decide, by decide⟩

/-- C2, amended. Against the deterministic paged server, with no dispatch or handler
error, the striped strategy requests at most `Concurrency` pages after `P`, and at most
`Concurrency - 1` of them when page `P` holds fewer than `PageSize` records. -/
theorem striped_overfetch_bound (c : ApiCollector ι ρ) (P : Int)
    (hS : 1 ≤ c.args.PageSize) (hC : 1 ≤ c.args.Concurrency) (hP : 1 ≤ P)
    (hmode : c.args.GetTotalPages = none) (hd : NoDispatchError c) (hs : NoCreateError c)
    (hsrv : PagedServer c P) (reqData : RequestData ι) (table : List RawData)
    (progress : Progress) (sched : List Nat)
    (hlen : (P + c.args.Concurrency).toNat ≤ sched.length) :
    (WaitAsync c sched (fetchPagesAsync c reqData (State.init table progress)).2).pending = [] ∧
    (overFetched P (WaitAsync c sched
        (fetchPagesAsync c reqData (State.init table progress)).2) : Int)
      ≤ c.args.Concurrency ∧
    (ShortLastPage c P →
      (overFetched P (WaitAsync c sched
          (fetchPagesAsync c reqData (State.init table progress)).2) : Int)
        ≤ c.args.Concurrency - 1) := by
  obtain ⟨_, h2, h3, _⟩ := striped_run c P P (by omega) hC hd hs hmode (hsrv.answers hS)
    reqData table progress sched hlen
  refine ⟨h2, ?_, ?_⟩
  · have := h3.overfetch_le (by omega)
    unfold overFetched
    omega
  · intro hshort
    obtain ⟨_, _, h4, _⟩ := striped_run c (P - 1) P (by omega) hC hd hs hmode
      (hsrv.answers_short hS hshort) reqData table progress sched (by omega)
    have := h4.overfetch_le (by omega)
    unfold overFetched
    omega

/-- C2, amended, on an example: page size 2, concurrency 2, three pages, the last with
one record. -/
theorem striped_overfetch_bound_witness :
    (WaitAsync (demoCollector 2 2 3 1 0) [0, 1, 0, 1, 0]
        (fetchPagesAsync (demoCollector 2 2 3 1 0) ⟨none, none⟩
          (State.init [] ⟨0, 0⟩)).2).pending = [] ∧
    (overFetched 3 (WaitAsync (demoCollector 2 2 3 1 0) [0, 1, 0, 1, 0]
        (fetchPagesAsync (demoCollector 2 2 3 1 0) ⟨none, none⟩
          (State.init [] ⟨0, 0⟩)).2) : Int)
      ≤ (demoCollector 2 2 3 1 0).args.Concurrency ∧
    (ShortLastPage (demoCollector 2 2 3 1 0) 3 →
      (overFetched 3 (WaitAsync (demoCollector 2 2 3 1 0) [0, 1, 0, 1, 0]
          (fetchPagesAsync (demoCollector 2 2 3 1 0) ⟨none, none⟩
            (State.init [] ⟨0, 0⟩)).2) : Int)
        ≤ (demoCollector 2 2 3 1 0).args.Concurrency - 1) :=
  striped_overfetch_bound (demoCollector 2 2 3 1 0) 3 (by decide) (by decide)
    (by decide) rfl (demo_noDispatchError 2 2 3 1 0) (demo_noCreateError 2 2 3 1 0)
    (demo_pagedServer 2 2 3 1 0 (by decide) (by decide)) ⟨none, none⟩ [] ⟨0, 0⟩
    [0, 1, 0, 1, 0] (by decide)

end StripedClaims

section KnownTotal

variable {ι ρ : Type}

theorem otherPagesLoop_ok (c : ApiCollector ι ρ) (hd : NoDispatchError c) (input : Option ι)
    (l : List Int) (st : State ι ρ) :
    ∃ fs : List (Fetch ι ρ),
      otherPagesLoop c input l st
        = (none, { st with fetched := st.fetched ++ fs, pending := st.pending ++ fs }) ∧
      (fs.map fun f => f.pager.Page) = l ∧
      ∀ f ∈ fs, f.handler = .otherPage := by
  induction l generalizing st with
  | nil => exact ⟨[], by simp [otherPagesLoop], rfl, by simp⟩
  | cons page rest ih =>
    obtain ⟨u, hu⟩ := fetchAsync_ok c hd ⟨some (pagePager c page), input⟩ .otherPage st
    obtain ⟨fs, h1, h2, h3⟩ := ih (enqueue
      ⟨u, pagerOf ⟨some (pagePager c page), input⟩, input, .otherPage⟩ st)
    refine ⟨⟨u, pagePager c page, input, .otherPage⟩ :: fs, ?_, ?_, ?_⟩
    · simp only [otherPagesLoop]
      rw [hu]
      simp only []
      rw [h1]
      simp [enqueue, pagerOf]
    · simp [h2, pagePager]
    · intro f hf
      rcases List.mem_cons.mp hf with hf | hf
      · subst hf; rfl
      · exact h3 f hf

theorem deliver_otherPage (c : ApiCollector ι ρ) (f : Fetch ι ρ) (hf : f.handler = .otherPage)
    (st : State ι ρ) :
    (deliver c f st).fetched = st.fetched ∧ (deliver c f st).pending = st.pending := by
  unfold deliver
  cases c.world.respond f.pager f.input with
  | none => exact ⟨rfl, rfl⟩
  | some res =>
    obtain ⟨h1, h2, _, _⟩ := saveRawData_frame c res none st
    simp only [hf, runHandler, handleResponse]
    generalize saveRawData c res none st = r at h1 h2
    obtain ⟨⟨n, e⟩, st1⟩ := r
    simp only [] at h1 h2
    cases e with
    | some e => simp [h1, h2]
    | none => cases c.args.Input.isNone <;> simp [h1, h2, IncProgress]

/-- Once only handlers of the pages `2..N` are pending, each completion removes one
pending request and makes no new one. -/
theorem runAsync_otherPages (c : ApiCollector ι ρ) (sched : List Nat) (st : State ι ρ)
    (hinv : ∀ f ∈ st.pending, f.handler = .otherPage) :
    (runAsync c sched st).fetched = st.fetched ∧
    (runAsync c sched st).pending.length = st.pending.length - sched.length := by
  induction sched generalizing st with
  | nil => exact ⟨rfl, rfl⟩
  | cons pick rest ih =>
    have hrun : runAsync c (pick :: rest) st = runAsync c rest (stepAsync c pick st) := rfl
    rw [hrun]
    by_cases hnil : st.pending = []
    · rw [stepAsync_of_nil c pick st hnil, runAsync_of_nil c rest st hnil]
      simp [hnil]
    · have hpos : 0 < st.pending.length := List.length_pos.mpr hnil
      have hlt : pick % st.pending.length < st.pending.length := Nat.mod_lt _ hpos
      have hget : st.pending[pick % st.pending.length]?
          = some (st.pending[pick % st.pending.length]) := List.getElem?_eq_getElem hlt
      obtain ⟨Q1, Q2, h1, h2⟩ := split_of_getElem? _ _ _ hget
      have hstep : stepAsync c pick st
          = deliver c (st.pending[pick % st.pending.length]) { st with pending := Q1 ++ Q2 } := by
        unfold stepAsync
        rw [hget]
        simp only []
        rw [h2]
      have hmem : st.pending[pick % st.pending.length] ∈ st.pending := List.getElem_mem _
      obtain ⟨h3, h4⟩ := deliver_otherPage c _ (hinv _ hmem) { st with pending := Q1 ++ Q2 }
      simp only [] at h3 h4
      have hinv1 : ∀ f ∈ (stepAsync c pick st).pending, f.handler = .otherPage := by
        intro f hfm
        rw [hstep, h4] at hfm
        apply hinv f
        rw [h1]
        rcases List.mem_append.mp hfm with hfm | hfm
        · exact List.mem_append.mpr (Or.inl hfm)
        · exact List.mem_append.mpr (Or.inr (List.mem_cons_of_mem _ hfm))
      obtain ⟨h5, h6⟩ := ih (stepAsync c pick st) hinv1
      rw [h5, h6, hstep, h3, h4]
      refine ⟨rfl, ?_⟩
      have hl : st.pending.length = Q1.length + (Q2.length + 1) := by
        rw [h1]; simp
      simp only [List.length_append, List.length_cons]
      omega

theorem knownTotalPages_eq (N : Int) : knownTotalPages N = 1 :: otherPages N := by
  unfold knownTotalPages otherPages
  have h : (max N 1).toNat = (N - 1).toNat + 1 := by omega
  rw [h, List.range_succ_eq_map]
  simp only [List.map_cons, List.map_map]
  refine congrArg₂ _ (by simp) ?_
  apply List.map_congr_left
  intro k _
  simp only [Function.comp]
  push_cast
  ring

/-- C3, as stated, fails: when the first response announces `N = 0` pages, one request
(page 1) was made, not zero. -/
theorem known_total_counterexample :
    (fetchPagesAsync (demoKnownTotal 5 0 0 0) ⟨none, none⟩ (State.init [] ⟨0, 0⟩)).1 = none ∧
    (WaitAsync (demoKnownTotal 5 0 0 0) [0]
      (fetchPagesAsync (demoKnownTotal 5 0 0 0) ⟨none, none⟩
        (State.init [] ⟨0, 0⟩)).2).pending = [] ∧
    fetchedPages (WaitAsync (demoKnownTotal 5 0 0 0) [0]
      (fetchPagesAsync (demoKnownTotal 5 0 0 0) ⟨none, none⟩
        (State.init [] ⟨0, 0⟩)).2) = [1] ∧
    ¬ (((WaitAsync (demoKnownTotal 5 0 0 0) [0]
      (fetchPagesAsync (demoKnownTotal 5 0 0 0) ⟨none, none⟩
        (State.init [] ⟨0, 0⟩)).2).fetched.length : Int) = 0) :=
  ⟨rfl, rfl, by decide, by decide⟩

/-- C3, amended. In a known-total run with no dispatch or storage error whose first
response parses and announces `N` pages, `fetchPagesAsync` and the barrier (given at
least `max N 1` completions) leave no request pending, and the requests made are
exactly the pages `1..N`, each once and in this order, when `N ≥ 1`, and page 1 alone
when `N ≤ 0`: `max N 1` requests in all. -/
theorem known_total_fetches (c : ApiCollector ι ρ) (N : Int)
    (getTotalPages : ρ → Except Error Int) (hmode : c.args.GetTotalPages = some getTotalPages)
    (hd : NoDispatchError c) (hs : NoCreateError c) (input : Option ι)
    (hfirst : ∃ res items, c.world.respond defaultPager input = some res ∧
      getTotalPages res = .ok N ∧ c.args.ResponseParser res = .ok items)
    (table : List RawData) (progress : Progress) (sched : List Nat)
    (hlen : (max N 1).toNat ≤ sched.length) :
    (fetchPagesAsync c ⟨none, input⟩ (State.init table progress)).1 = none ∧
    (WaitAsync c sched (fetchPagesAsync c ⟨none, input⟩ (State.init table progress)).2).pending
      = [] ∧
    fetchedPages (WaitAsync c sched
      (fetchPagesAsync c ⟨none, input⟩ (State.init table progress)).2) = knownTotalPages N ∧
    ((WaitAsync c sched
      (fetchPagesAsync c ⟨none, input⟩ (State.init table progress)).2).fetched.length : Int)
      = max N 1 := by
  obtain ⟨res, items, hres, htotal, hparse⟩ := hfirst
  obtain ⟨u, hu⟩ := fetchAsync_ok c hd ⟨none, input⟩ (.firstPage getTotalPages input)
    (State.init table progress)
  -- the state after `fetchPagesAsync`: the request for page 1 is pending
  have hstart : ∃ st0 : State ι ρ,
      fetchPagesAsync c ⟨none, input⟩ (State.init table progress) = (none, st0) ∧
      st0.fetched = [⟨u, defaultPager, input, .firstPage getTotalPages input⟩] ∧
      st0.pending = [⟨u, defaultPager, input, .firstPage getTotalPages input⟩] := by
    unfold fetchPagesAsync
    rw [hmode]
    simp only []
    rw [hu]
    simp only []
    cases c.args.Input.isSome
    · exact ⟨_, rfl, rfl, rfl⟩
    · exact ⟨_, rfl, rfl, rfl⟩
  obtain ⟨st0, hst0, hf0, hp0⟩ := hstart
  rw [hst0]
  simp only []
  cases sched with
  | nil =>
    exfalso
    simp only [List.length_nil] at hlen
    omega
  | cons pick rest =>
    -- the first completion runs the handler of page 1
    have hstep : ∃ st1 : State ι ρ, stepAsync c pick st0 = st1 ∧
        fetchedPages st1 = 1 :: otherPages N ∧
        st1.pending.length = (N - 1).toNat ∧
        ∀ f ∈ st1.pending, f.handler = .otherPage := by
      obtain ⟨hfr1, hfr2, _, _⟩ := saveRawData_frame c res none { st0 with pending := [] }
      have hcount := saveRawData_count c hs res items hparse none { st0 with pending := [] }
      have hsv : saveRawData c res none { st0 with pending := [] }
          = (((items.length : Int), none),
              (saveRawData c res none { st0 with pending := [] }).2) :=
        Prod.ext hcount rfl
      generalize (saveRawData c res none { st0 with pending := [] }).2 = st2 at hsv hfr1 hfr2
      simp only [] at hfr1 hfr2
      obtain ⟨fs, hl1, hl2, hl3⟩ := otherPagesLoop_ok c hd input (otherPages N)
        (if c.args.Input.isNone then SetProgress 1 N st2 else st2)
      refine ⟨_, rfl, ?_⟩
      unfold stepAsync
      rw [hp0]
      simp only [List.length_singleton, Nat.mod_one, List.getElem?_cons_zero,
        List.eraseIdx_cons_zero]
      unfold deliver
      simp only []
      rw [hres]
      simp only [runHandler, handleResponse]
      rw [htotal]
      simp only []
      rw [hsv]
      simp only []
      rw [hl1]
      simp only []
      have hlen2 : fs.length = (N - 1).toNat := by
        have := congrArg List.length hl2
        simpa [otherPages] using this
      cases c.args.Input.isNone
      · simp only [Bool.false_eq_true, if_false, fetchedPages, hfr1, hfr2, hf0,
          List.map_append, List.map_cons, List.map_nil, hl2, List.nil_append,
          List.singleton_append]
        exact ⟨by simp [defaultPager], hlen2, hl3⟩
      · simp only [if_true, fetchedPages, SetProgress, hfr1, hfr2, hf0,
          List.map_append, List.map_cons, List.map_nil, hl2, List.nil_append,
          List.singleton_append]
        exact ⟨by simp [defaultPager], hlen2, hl3⟩
    obtain ⟨st1, hst1, hpages, hplen, hshape⟩ := hstep
    obtain ⟨hr1, hr2⟩ := runAsync_otherPages c rest st1 hshape
    have hwait : WaitAsync c (pick :: rest) st0
        = { runAsync c rest st1 with waited := true } := by
      unfold WaitAsync
      rw [← hst1]
      rfl
    rw [hwait]
    have hfp : fetchedPages ({ runAsync c rest st1 with waited := true } : State ι ρ)
        = knownTotalPages N := by
      rw [knownTotalPages_eq, ← hpages]
      simp only [fetchedPages, hr1]
    refine ⟨trivial, ?_, hfp, ?_⟩
    · apply List.eq_nil_of_length_eq_zero
      simp only [hr2, hplen]
      simp only [List.length_cons] at hlen
      omega
    · have := congrArg List.length hfp
      simp only [fetchedPages, List.length_map, knownTotalPages, List.length_range] at this
      rw [this]
      omega

/-- C3, amended, on an example: the first response announces three pages. -/
theorem known_total_fetches_witness :
    (fetchPagesAsync (demoKnownTotal 2 3 1 3) ⟨none, none⟩ (State.init [] ⟨0, 0⟩)).1 = none ∧
    (WaitAsync (demoKnownTotal 2 3 1 3) [0, 1, 0]
      (fetchPagesAsync (demoKnownTotal 2 3 1 3) ⟨none, none⟩
        (State.init [] ⟨0, 0⟩)).2).pending = [] ∧
    fetchedPages (WaitAsync (demoKnownTotal 2 3 1 3) [0, 1, 0]
      (fetchPagesAsync (demoKnownTotal 2 3 1 3) ⟨none, none⟩
        (State.init [] ⟨0, 0⟩)).2) = knownTotalPages 3 ∧
    ((WaitAsync (demoKnownTotal 2 3 1 3) [0, 1, 0]
      (fetchPagesAsync (demoKnownTotal 2 3 1 3) ⟨none, none⟩
        (State.init [] ⟨0, 0⟩)).2).fetched.length : Int) = max 3 1 :=
  known_total_fetches (demoKnownTotal 2 3 1 3) 3 (fun res => .ok res.totalPages) rfl
    ⟨fun _ _ => ⟨_, rfl⟩, fun _ h => by simp [demoKnownTotal, demoCollector] at h,
      fun _ h => by simp [demoKnownTotal, demoCollector] at h, fun _ _ _ => rfl⟩
    (fun _ => rfl) none ⟨_, _, rfl, rfl, rfl⟩ [] ⟨0, 0⟩ [0, 1, 0] (by decide)

end KnownTotal

section StableInvariants

variable {ι ρ : Type}

variable {c : ApiCollector ι ρ} {I : State ι ρ → Prop}

theorem Stable.on_fetchAsync (hI : Stable c I) (rd : RequestData ι) (h : Handler ι ρ)
    (st : State ι ρ) (hst : I st) : I (fetchAsync c rd h st).2 := by
  rcases fetchAsync_cases c rd h st with ⟨e, he⟩ | ⟨u, hu⟩
  · rw [he]; exact hst
  · rw [hu]; exact hI.enqueue _ _ hst

theorem Stable.on_saveRawData (hI : Stable c I) (res : ρ) (input : Option ι)
    (st : State ι ρ) (hst : I st) : I (saveRawData c res input st).2 := by
  rcases saveRawData_cases c res input st with h | ⟨dd, hdd, h⟩
  · rw [h]; exact hst
  · rw [h]; exact hI.store _ _ (fun r hr => (hdd r hr).1) hst

theorem Stable.on_otherPagesLoop (hI : Stable c I) (input : Option ι) (l : List Int)
    (st : State ι ρ) (hst : I st) : I (otherPagesLoop c input l st).2 := by
  induction l generalizing st with
  | nil => exact hst
  | cons page rest ih =>
    have h1 := hI.on_fetchAsync ⟨some (pagePager c page), input⟩ .otherPage st hst
    simp only [otherPagesLoop]
    generalize fetchAsync c ⟨some (pagePager c page), input⟩ .otherPage st = r at h1
    obtain ⟨e, st1⟩ := r
    cases e with
    | some e => exact h1
    | none => exact ih st1 h1

theorem Stable.on_stripesLoop (hI : Stable c I) (input : Option ι) (l : List Nat)
    (st : State ι ρ) (hst : I st) : I (stripesLoop c input l st).2 := by
  induction l generalizing st with
  | nil => exact hst
  | cons i rest ih =>
    have h1 := hI.on_fetchAsync ⟨some (stripePager c (i : Int)), input⟩
      (.recursive (stripePager c (i : Int)) input) st hst
    simp only [stripesLoop]
    generalize fetchAsync c ⟨some (stripePager c (i : Int)), input⟩
      (.recursive (stripePager c (i : Int)) input) st = r at h1
    obtain ⟨e, st1⟩ := r
    cases e with
    | some e => exact h1
    | none => exact ih st1 h1

theorem Stable.on_runHandler (hI : Stable c I) (h : Handler ι ρ) (res : ρ) (st : State ι ρ)
    (hst : I st) : I (runHandler c h res st).2 := by
  cases h with
  | handleNoPageResponse input => exact hI.on_saveRawData res input st hst
  | firstPage getTotalPages input =>
    simp only [runHandler, handleResponse]
    cases getTotalPages res with
    | error e => exact hst
    | ok totalPages =>
      have h1 := hI.on_saveRawData res none st hst
      simp only []
      generalize saveRawData c res none st = r at h1
      obtain ⟨⟨n, e⟩, st1⟩ := r
      cases e with
      | some e => exact h1
      | none =>
        simp only []
        apply hI.on_otherPagesLoop
        by_cases hin : c.args.Input.isNone = true
        · rw [if_pos hin]; exact hI.setTotal hin _ _ h1
        · rw [if_neg hin]; exact h1
  | otherPage =>
    simp only [runHandler, handleResponse]
    have h1 := hI.on_saveRawData res none st hst
    generalize saveRawData c res none st = r at h1
    obtain ⟨⟨n, e⟩, st1⟩ := r
    cases e with
    | some e => exact h1
    | none =>
      simp only []
      split
      · exact hI.inc _ h1
      · exact h1
  | recursive pager input =>
    simp only [runHandler]
    have h1 := hI.on_saveRawData res input st hst
    generalize saveRawData c res input st = r at h1
    obtain ⟨⟨n, e⟩, st1⟩ := r
    cases e with
    | some e => exact h1
    | none =>
      simp only []
      split
      · exact h1
      · exact hI.on_fetchAsync _ _ _ h1

theorem Stable.on_deliver (hI : Stable c I) (f : Fetch ι ρ) (st : State ι ρ) (hst : I st) :
    I (deliver c f st) := by
  unfold deliver
  cases c.world.respond f.pager f.input with
  | none => exact hst
  | some res =>
    have h1 := hI.on_runHandler f.handler res st hst
    simp only []
    generalize runHandler c f.handler res st = r at h1
    obtain ⟨e, st1⟩ := r
    cases e with
    | some e => exact hI.failed _ _ h1
    | none => exact h1

theorem Stable.on_stepAsync (hI : Stable c I) (pick : Nat) (st : State ι ρ) (hst : I st) :
    I (stepAsync c pick st) := by
  unfold stepAsync
  cases st.pending[pick % st.pending.length]? with
  | none => exact hst
  | some f => exact hI.on_deliver f _ (hI.dequeue _ _ hst)

theorem Stable.on_runAsync (hI : Stable c I) (sched : List Nat) (st : State ι ρ) (hst : I st) :
    I (runAsync c sched st) := by
  induction sched generalizing st with
  | nil => exact hst
  | cons pick rest ih => exact ih _ (hI.on_stepAsync pick st hst)

theorem Stable.on_fetchPagesAsync (hI : Stable c I) (rd : RequestData ι) (st : State ι ρ)
    (hst : I st) : I (fetchPagesAsync c rd st).2 := by
  unfold fetchPagesAsync
  have h1 : I (match c.args.GetTotalPages with
      | some getTotalPages =>
        fetchAsync c rd (.firstPage getTotalPages rd.Input) st
      | none => stripesLoop c rd.Input (List.range c.args.Concurrency.toNat) st).2 := by
    cases c.args.GetTotalPages with
    | some g => exact hI.on_fetchAsync _ _ _ hst
    | none => exact hI.on_stripesLoop _ _ _ hst
  simp only []
  generalize (match c.args.GetTotalPages with
      | some getTotalPages =>
        fetchAsync c rd (.firstPage getTotalPages rd.Input) st
      | none => stripesLoop c rd.Input (List.range c.args.Concurrency.toNat) st) = r
    at h1
  obtain ⟨e, st1⟩ := r
  cases e with
  | some e => exact h1
  | none =>
    simp only []
    split
    · exact hI.inc _ h1
    · exact h1

theorem Stable.on_exec (hI : Stable c I) (input : Option ι) (st : State ι ρ) (hst : I st) :
    I (exec c input st).2 := by
  unfold exec
  simp only []
  split
  · exact hI.on_fetchPagesAsync _ _ hst
  · exact hI.on_fetchAsync _ _ _ hst

theorem Stable.on_inputLoop (hI : Stable c I) (it : List (Except Error ι)) (st : State ι ρ)
    (hst : I st) : I (inputLoop c it st).2 := by
  induction it generalizing st with
  | nil => exact hst
  | cons x rest ih =>
    cases x with
    | error e => exact hst
    | ok input =>
      have h1 := hI.on_exec (some input) st hst
      simp only [inputLoop]
      generalize exec c (some input) st = r at h1
      obtain ⟨e, st1⟩ := r
      cases e with
      | some e => exact h1
      | none => exact ih st1 h1

end StableInvariants

section Purge

variable {ι ρ : Type}

theorem tableInv_stable (c : ApiCollector ι ρ) (kept : List RawData) :
    Stable c (TableInv c kept) where
  enqueue := fun _ _ h => h
  dequeue := fun _ _ h => h
  store := by
    intro st dd hdd h
    refine ⟨?_, ?_⟩
    · simp [store, h.1]
    · intro r hr
      simp only [store, List.mem_append] at hr
      rcases hr with hr | hr
      · exact h.2 r hr
      · exact hdd r hr
  failed := fun _ _ h => h
  inc := fun _ h => h
  setTotal := fun _ _ _ h => h

theorem tableInv_filter (c : ApiCollector ι ρ) (table : List RawData) (st : State ι ρ)
    (h : TableInv c (table.filter fun r => r.Params != c.params) st) :
    st.table.filter (fun r => r.Params == c.params) = st.inserted ∧
    st.table.filter (fun r => r.Params != c.params)
      = table.filter (fun r => r.Params != c.params) := by
  obtain ⟨h1, h2⟩ := h
  rw [h1]
  simp only [List.filter_append, List.filter_filter]
  constructor
  · have e1 : List.filter (fun r : RawData => r.Params == c.params && r.Params != c.params)
        table = [] := by
      rw [List.filter_eq_nil_iff]
      intro r _
      simp
    have e2 : List.filter (fun r : RawData => r.Params == c.params) st.inserted
        = st.inserted := by
      rw [List.filter_eq_self]
      intro r hr
      simp [h2 r hr]
    rw [e1, e2, List.nil_append]
  · have e1 : List.filter (fun r : RawData => r.Params != c.params) st.inserted = [] := by
      rw [List.filter_eq_nil_iff]
      intro r hr
      simp [h2 r hr]
    rw [e1, List.append_nil]
    apply List.filter_congr
    intro r _
    simp

/-- C6. After a full-refresh `Execute` (`Incremental = false`) in which the migration,
the purge and every bulk insert succeed, the rows of the table carrying the run's
fingerprint are exactly the rows inserted by `saveRawData` during the run, and the rows
with another fingerprint are exactly those that were in the table before. -/
theorem purge_is_selective (c : ApiCollector ι ρ) (hinc : c.args.Incremental = false)
    (hmig : c.world.AutoMigrate = none) (hdel : c.world.Delete = none)
    (_hcreate : NoCreateError c) (sched : List Nat) (table : List RawData)
    (progress : Progress) :
    (Execute c sched (State.init table progress)).2.table.filter
        (fun r => r.Params == c.params)
      = (Execute c sched (State.init table progress)).2.inserted ∧
    (Execute c sched (State.init table progress)).2.table.filter
        (fun r => r.Params != c.params)
      = table.filter (fun r => r.Params != c.params) := by
  apply tableInv_filter
  have hS := tableInv_stable c (table.filter fun r => r.Params != c.params)
  have h0 : TableInv c (table.filter fun r => r.Params != c.params)
      (purge c (State.init table progress)) := by
    refine ⟨?_, ?_⟩
    · simp [purge, State.init]
    · intro r hr
      simp [purge, State.init] at hr
  unfold Execute
  rw [hmig, hinc, hdel]
  simp only [Bool.not_false, if_true]
  cases hin : c.args.Input with
  | some iterator =>
    simp only []
    have h1 : TableInv c (table.filter fun r => r.Params != c.params)
        (SetProgress 0 (-1) (purge c (State.init table progress))) := h0
    have h2 := hS.on_inputLoop iterator _ h1
    generalize inputLoop c iterator (SetProgress 0 (-1) (purge c (State.init table progress)))
      = r at h2
    obtain ⟨e, st3⟩ := r
    cases e with
    | some e => exact h2
    | none => exact hS.on_runAsync sched st3 h2
  | none =>
    simp only []
    have h1 := hS.on_exec none _ h0
    exact hS.on_runAsync sched _ h1

/-- C6 on an example: a striped full-refresh run that stores three rows into a table
holding two rows of its fingerprint and one of another. -/
theorem purge_is_selective_witness :
    (Execute (demoCollector 2 1 2 1 0) [0, 0, 0] (State.init demoTable ⟨0, 0⟩)).2.table.filter
        (fun r => r.Params == (demoCollector 2 1 2 1 0).params)
      = (Execute (demoCollector 2 1 2 1 0) [0, 0, 0] (State.init demoTable ⟨0, 0⟩)).2.inserted ∧
    (Execute (demoCollector 2 1 2 1 0) [0, 0, 0] (State.init demoTable ⟨0, 0⟩)).2.table.filter
        (fun r => r.Params != (demoCollector 2 1 2 1 0).params)
      = demoTable.filter (fun r => r.Params != (demoCollector 2 1 2 1 0).params) :=
  purge_is_selective (demoCollector 2 1 2 1 0) rfl rfl rfl (demo_noCreateError 2 1 2 1 0)
    [0, 0, 0] demoTable ⟨0, 0⟩

end Purge

section ProgressCounter

variable {ι ρ : Type}

theorem drivenInv_stable (c : ApiCollector ι ρ) (it : List (Except Error ι))
    (hin : c.args.Input = some it) : Stable c (DrivenInv (ι := ι) (ρ := ρ)) where
  enqueue := fun _ _ h => h
  dequeue := fun _ _ h => h
  store := fun _ _ _ h => h
  failed := fun _ _ h => h
  inc := by
    intro st h
    refine ⟨h.1, ?_⟩
    intro p hp
    simp only [IncProgress, List.mem_append, List.mem_singleton] at hp
    rcases hp with hp | hp
    · exact h.2 p hp
    · subst hp
      intro h0
      have := h.1
      simp only [] at h0
      omega
  setTotal := by
    intro h
    rw [hin] at h
    simp at h

theorem otherPagesLoop_cases (c : ApiCollector ι ρ) (input : Option ι) (l : List Int)
    (st : State ι ρ) :
    ∃ fs : List (Fetch ι ρ), (otherPagesLoop c input l st).2 = enqueueAll fs st ∧
      fs.length ≤ l.length ∧ ∀ f ∈ fs, f.handler = .otherPage := by
  induction l generalizing st with
  | nil => exact ⟨[], by simp [otherPagesLoop, enqueueAll], by simp, by simp⟩
  | cons page rest ih =>
    simp only [otherPagesLoop]
    rcases fetchAsync_cases c ⟨some (pagePager c page), input⟩ .otherPage st with
      ⟨e, he⟩ | ⟨u, hu⟩
    · rw [he]
      exact ⟨[], by simp [enqueueAll], by simp, by simp⟩
    · rw [hu]
      simp only []
      obtain ⟨fs, h1, h2, h3⟩ := ih (enqueue
        ⟨u, pagerOf ⟨some (pagePager c page), input⟩, input, .otherPage⟩ st)
      refine ⟨⟨u, pagerOf ⟨some (pagePager c page), input⟩, input, .otherPage⟩ :: fs,
        ?_, ?_, ?_⟩
      · rw [h1]; simp [enqueueAll, enqueue]
      · simp only [List.length_cons]; omega
      · intro f hf
        rcases List.mem_cons.mp hf with hf | hf
        · subst hf; rfl
        · exact h3 f hf

theorem stripesLoop_cases (c : ApiCollector ι ρ) (input : Option ι) (l : List Nat)
    (st : State ι ρ) :
    ∃ fs : List (Fetch ι ρ), (stripesLoop c input l st).2 = enqueueAll fs st ∧
      ∀ f ∈ fs, f.handler.isFirstPage = false ∧ f.handler.isOtherPage = false := by
  induction l generalizing st with
  | nil => exact ⟨[], by simp [stripesLoop, enqueueAll], by simp⟩
  | cons i rest ih =>
    simp only [stripesLoop]
    rcases fetchAsync_cases c ⟨some (stripePager c (i : Int)), input⟩
      (.recursive (stripePager c (i : Int)) input) st with ⟨e, he⟩ | ⟨u, hu⟩
    · rw [he]
      exact ⟨[], by simp [enqueueAll], by simp⟩
    · rw [hu]
      simp only []
      obtain ⟨fs, h1, h3⟩ := ih (enqueue
        ⟨u, pagerOf ⟨some (stripePager c (i : Int)), input⟩, input,
          .recursive (stripePager c (i : Int)) input⟩ st)
      refine ⟨⟨u, pagerOf ⟨some (stripePager c (i : Int)), input⟩, input,
          .recursive (stripePager c (i : Int)) input⟩ :: fs, ?_, ?_⟩
      · rw [h1]; simp [enqueueAll, enqueue]
      · intro f hf
        rcases List.mem_cons.mp hf with hf | hf
        · subst hf; exact ⟨rfl, rfl⟩
        · exact h3 f hf

/-- What the completion of one request does to the queue and to the counter, in a run
without driving iterator, when the extractor of the request does not announce zero
pages on its response. -/
theorem deliver_summary (c : ApiCollector ι ρ) (hin : c.args.Input = none)
    (f : Fetch ι ρ)
    (hz : NotZeroOn c f)
    (st : State ι ρ) :
    ∃ fs : List (Fetch ι ρ), (deliver c f st).pending = st.pending ++ fs ∧
      (((deliver c f st).progress = st.progress ∧
          (deliver c f st).progressLog = st.progressLog ∧
          ∀ g ∈ fs, g.handler.isFirstPage = false ∧ g.handler.isOtherPage = false) ∨
        (f.handler.isOtherPage = true ∧ fs = [] ∧
          (deliver c f st).progress = ⟨st.progress.done + 1, st.progress.total⟩ ∧
          (deliver c f st).progressLog
            = st.progressLog ++ [⟨st.progress.done + 1, st.progress.total⟩]) ∨
        (f.handler.isFirstPage = true ∧ ∃ N : Int, N ≠ 0 ∧
          (deliver c f st).progress = ⟨1, N⟩ ∧
          (deliver c f st).progressLog = st.progressLog ++ [⟨1, N⟩] ∧
          fs.length ≤ (N - 1).toNat ∧ ∀ g ∈ fs, g.handler = .otherPage)) := by
  have hnone : c.args.Input.isNone = true := by rw [hin]; rfl
  unfold deliver
  cases hres : c.world.respond f.pager f.input with
  | none => exact ⟨[], by simp, Or.inl ⟨rfl, rfl, by simp⟩⟩
  | some res =>
    simp only []
    cases hh : f.handler with
    | handleNoPageResponse input =>
      simp only [runHandler]
      obtain ⟨_, h2, h3, h4⟩ := saveRawData_frame c res input st
      generalize saveRawData c res input st = r at h2 h3 h4
      obtain ⟨⟨n, e⟩, st1⟩ := r
      simp only [] at h2 h3 h4
      refine ⟨[], ?_, Or.inl ⟨?_, ?_, by simp⟩⟩ <;> cases e <;> simp [h2, h3, h4]
    | recursive pager input =>
      simp only [runHandler]
      obtain ⟨_, h2, h3, h4⟩ := saveRawData_frame c res input st
      generalize saveRawData c res input st = r at h2 h3 h4
      obtain ⟨⟨n, e⟩, st1⟩ := r
      simp only [] at h2 h3 h4
      cases e with
      | some e => exact ⟨[], by simp [h2], Or.inl ⟨by simp [h3], by simp [h4], by simp⟩⟩
      | none =>
        simp only []
        by_cases hlt : n < c.args.PageSize
        · rw [if_pos hlt]
          exact ⟨[], by simp [h2], Or.inl ⟨by simp [h3], by simp [h4], by simp⟩⟩
        · rw [if_neg hlt]
          rcases fetchAsync_cases c ⟨some (advancePager c pager), input⟩
            (.recursive (advancePager c pager) input) st1 with ⟨e, he⟩ | ⟨u, hu⟩
          · rw [he]
            exact ⟨[], by simp [h2], Or.inl ⟨by simp [h3], by simp [h4], by simp⟩⟩
          · rw [hu]
            refine ⟨[⟨u, pagerOf ⟨some (advancePager c pager), input⟩, input,
              .recursive (advancePager c pager) input⟩], by simp only [enqueue, h2],
              Or.inl ⟨by simp [enqueue, h3],
              by simp [enqueue, h4], ?_⟩⟩
            intro g hg
            rw [List.mem_singleton] at hg
            subst hg
            exact ⟨rfl, rfl⟩
    | otherPage =>
      simp only [runHandler, handleResponse]
      obtain ⟨_, h2, h3, h4⟩ := saveRawData_frame c res none st
      generalize saveRawData c res none st = r at h2 h3 h4
      obtain ⟨⟨n, e⟩, st1⟩ := r
      simp only [] at h2 h3 h4
      cases e with
      | some e => exact ⟨[], by simp [h2], Or.inl ⟨by simp [h3], by simp [h4], by simp⟩⟩
      | none =>
        simp only [hnone, if_true]
        exact ⟨[], by simp [IncProgress, h2], Or.inr (Or.inl ⟨rfl, rfl,
          by simp [IncProgress, h3], by simp [IncProgress, h3, h4]⟩)⟩
    | firstPage g input =>
      simp only [runHandler, handleResponse]
      cases hg : g res with
      | error e => exact ⟨[], by simp, Or.inl ⟨rfl, rfl, by simp⟩⟩
      | ok N =>
        have hN : N ≠ 0 := by
          intro h0
          apply hz g input hh res hres
          rw [hg, h0]
        simp only []
        obtain ⟨_, h2, h3, h4⟩ := saveRawData_frame c res none st
        generalize saveRawData c res none st = r at h2 h3 h4
        obtain ⟨⟨n, e⟩, st1⟩ := r
        simp only [] at h2 h3 h4
        cases e with
        | some e => exact ⟨[], by simp [h2], Or.inl ⟨by simp [h3], by simp [h4], by simp⟩⟩
        | none =>
          simp only [hnone, if_true]
          obtain ⟨fs, e1, e2, e3⟩ := otherPagesLoop_cases c input (otherPages N)
            (SetProgress 1 N st1)
          have e4 : fs.length ≤ (N - 1).toNat := by
            simpa [otherPages] using e2
          generalize otherPagesLoop c input (otherPages N) (SetProgress 1 N st1) = r at e1
          obtain ⟨e, st2⟩ := r
          simp only [] at e1
          subst e1
          refine ⟨fs, ?_, Or.inr (Or.inr ⟨rfl, N, hN, ?_, ?_, e4, e3⟩)⟩ <;>
            cases e <;> simp [enqueueAll, SetProgress, h2, h4]

end ProgressCounter

section ProgressClaim

variable {ι ρ : Type}

theorem firstCount_split (Q1 Q2 : List (Fetch ι ρ)) (f : Fetch ι ρ) :
    firstCount (Q1 ++ f :: Q2)
      = firstCount (Q1 ++ Q2) + (if f.handler.isFirstPage = true then 1 else 0) := by
  simp only [firstCount, List.countP_append, List.countP_cons]
  omega

theorem otherCount_split (Q1 Q2 : List (Fetch ι ρ)) (f : Fetch ι ρ) :
    otherCount (Q1 ++ f :: Q2)
      = otherCount (Q1 ++ Q2) + (if f.handler.isOtherPage = true then 1 else 0) := by
  simp only [otherCount, List.countP_append, List.countP_cons]
  omega

theorem counts_of_neutral (fs : List (Fetch ι ρ))
    (h : ∀ g ∈ fs, g.handler.isFirstPage = false ∧ g.handler.isOtherPage = false) :
    firstCount fs = 0 ∧ otherCount fs = 0 := by
  constructor
  · rw [firstCount, List.countP_eq_zero]
    intro g hg
    simp [(h g hg).1]
  · rw [otherCount, List.countP_eq_zero]
    intro g hg
    simp [(h g hg).2]

theorem counts_of_otherPage (fs : List (Fetch ι ρ)) (h : ∀ g ∈ fs, g.handler = .otherPage) :
    firstCount fs = 0 ∧ otherCount fs = fs.length := by
  constructor
  · rw [firstCount, List.countP_eq_zero]
    intro g hg
    simp [h g hg, Handler.isFirstPage]
  · rw [otherCount, List.countP_eq_length]
    intro g hg
    simp [h g hg, Handler.isOtherPage]

theorem not_first_of_other (h : Handler ι ρ) (ho : h.isOtherPage = true) :
    h.isFirstPage = false := by
  cases h <;> simp_all [Handler.isOtherPage, Handler.isFirstPage]

theorem deliver_progInv (c : ApiCollector ι ρ) (hin : c.args.Input = none)
    (st : State ι ρ) (Q1 Q2 : List (Fetch ι ρ)) (f : Fetch ι ρ)
    (hpend : st.pending = Q1 ++ f :: Q2) (hinv : ProgInv c st) :
    ProgInv c (deliver c f { st with pending := Q1 ++ Q2 }) := by
  have hfmem : f ∈ st.pending := by rw [hpend]; simp
  obtain ⟨fs, hp, hsum⟩ := deliver_summary c hin f (hinv.ext f hfmem)
    { st with pending := Q1 ++ Q2 }
  simp only [] at hp hsum
  have hF := firstCount_split Q1 Q2 f
  have hO := otherCount_split Q1 Q2 f
  have hcnt := hinv.cnt
  rw [hpend, hF, hO] at hcnt
  have hF2 : firstCount (Q1 ++ Q2 ++ fs) = firstCount (Q1 ++ Q2) + firstCount fs := by
    simp only [firstCount, List.countP_append]
  have hO2 : otherCount (Q1 ++ Q2 ++ fs) = otherCount (Q1 ++ Q2) + otherCount fs := by
    simp only [otherCount, List.countP_append]
  have hsub : ∀ g ∈ Q1 ++ Q2, g ∈ st.pending := by
    intro g hg
    rw [hpend]
    rcases List.mem_append.mp hg with hg | hg
    · exact List.mem_append.mpr (Or.inl hg)
    · exact List.mem_append.mpr (Or.inr (List.mem_cons_of_mem _ hg))
  have hcur := hinv.cur
  unfold ProgressOk at hcur
  rcases hsum with ⟨h1, h2, h3⟩ | ⟨h1, h2, h3, h4⟩ | ⟨h1, N, hN, h3, h4, h5, h6⟩
  · obtain ⟨c1, c2⟩ := counts_of_neutral fs h3
    refine ⟨?_, ?_, ?_, ?_⟩
    · rw [h2]; exact hinv.log
    · rw [h1]; exact hinv.cur
    · rw [hp, h1, hF2, hO2, c1, c2]
      rcases hcnt with ⟨a, b⟩ | ⟨a, b⟩
      · left; constructor <;> omega
      · right
        refine ⟨by omega, ?_⟩
        rcases b with b | b
        · exact Or.inl b
        · right
          split at b <;> push_cast at b ⊢ <;> omega
    · intro g hg
      rw [hp] at hg
      rcases List.mem_append.mp hg with hg | hg
      · exact hinv.ext g (hsub g hg)
      · intro g' input hh
        have := (h3 g hg).1
        rw [hh] at this
        simp [Handler.isFirstPage] at this
  · subst h2
    have hnf := not_first_of_other _ h1
    rw [h1, hnf] at hcnt
    simp only [if_true, Bool.false_eq_true, if_false] at hcnt
    have hcnt2 : firstCount (Q1 ++ Q2) = 0 ∧
        (st.progress.total < 0 ∨
          st.progress.done + ((otherCount (Q1 ++ Q2) : Int) + 1) ≤ st.progress.total) := by
      rcases hcnt with ⟨_, b⟩ | ⟨a, b⟩
      · omega
      · refine ⟨by omega, ?_⟩
        rcases b with b | b
        · exact Or.inl b
        · right; push_cast at b; omega
    refine ⟨?_, ?_, ?_, ?_⟩
    · rw [h4]
      intro p hp'
      rcases List.mem_append.mp hp' with hp' | hp'
      · exact hinv.log p hp'
      · rw [List.mem_singleton] at hp'
        subst hp'
        intro ht
        simp only [] at ht ⊢
        rcases hcnt2.2 with b | b <;> omega
    · rw [h3]
      intro ht
      simp only [] at ht ⊢
      rcases hcnt2.2 with b | b <;> omega
    · rw [hp, h3]
      simp only [List.append_nil]
      right
      refine ⟨hcnt2.1, ?_⟩
      rcases hcnt2.2 with b | b
      · exact Or.inl b
      · right; omega
    · intro g hg
      rw [hp, List.append_nil] at hg
      exact hinv.ext g (hsub g hg)
  · obtain ⟨c1, c2⟩ := counts_of_otherPage fs h6
    rw [h1] at hcnt
    simp only [if_true] at hcnt
    have hcnt2 : firstCount (Q1 ++ Q2) = 0 ∧ otherCount (Q1 ++ Q2) = 0 := by
      rcases hcnt with ⟨a, b⟩ | ⟨a, _⟩
      · constructor <;> omega
      · omega
    refine ⟨?_, ?_, ?_, ?_⟩
    · rw [h4]
      intro p hp'
      rcases List.mem_append.mp hp' with hp' | hp'
      · exact hinv.log p hp'
      · rw [List.mem_singleton] at hp'
        subst hp'
        intro ht
        simp only [] at ht ⊢
        omega
    · rw [h3]
      intro ht
      simp only [] at ht ⊢
      omega
    · rw [hp, h3, hF2, hO2, c1, c2, hcnt2.1, hcnt2.2]
      right
      refine ⟨rfl, ?_⟩
      simp only []
      by_cases hneg : N < 0
      · exact Or.inl hneg
      · right; push_cast; omega
    · intro g hg
      rw [hp] at hg
      rcases List.mem_append.mp hg with hg | hg
      · exact hinv.ext g (hsub g hg)
      · intro g' input hh
        rw [h6 g hg] at hh
        cases hh

theorem stepAsync_progInv (c : ApiCollector ι ρ) (hin : c.args.Input = none) (pick : Nat)
    (st : State ι ρ) (hinv : ProgInv c st) : ProgInv c (stepAsync c pick st) := by
  unfold stepAsync
  cases hget : st.pending[pick % st.pending.length]? with
  | none => exact hinv
  | some f =>
    obtain ⟨Q1, Q2, h1, h2⟩ := split_of_getElem? _ _ _ hget
    simp only []
    rw [h2]
    exact deliver_progInv c hin st Q1 Q2 f h1 hinv

theorem runAsync_progInv (c : ApiCollector ι ρ) (hin : c.args.Input = none)
    (sched : List Nat) (st : State ι ρ) (hinv : ProgInv c st) :
    ProgInv c (runAsync c sched st) := by
  induction sched generalizing st with
  | nil => exact hinv
  | cons pick rest ih => exact ih _ (stepAsync_progInv c hin pick st hinv)

/-- After `exec` in a run without driving iterator, started with an empty queue, at
most one request of the first page is pending and none of the pages `2..N`. -/
theorem exec_progInv (c : ApiCollector ι ρ) (hin : c.args.Input = none)
    (hz : FirstTotalNotZero c)
    (st : State ι ρ) (hpend : st.pending = []) (hlog : ∀ p ∈ st.progressLog, ProgressOk p)
    (hcur : ProgressOk st.progress) : ProgInv c (exec c none st).2 := by
  have key : ∃ fs : List (Fetch ι ρ), (exec c none st).2 = enqueueAll fs st ∧
      firstCount fs ≤ 1 ∧ otherCount fs = 0 ∧
      ∀ f ∈ fs, NotZeroOn c f := by
    unfold exec
    simp only []
    by_cases hpos : c.args.PageSize > 0
    · rw [if_pos hpos]
      unfold fetchPagesAsync
      simp only [hin, Option.isSome_none, Bool.false_eq_true, if_false]
      cases hg : c.args.GetTotalPages with
      | some g =>
        simp only []
        rcases fetchAsync_cases c ⟨none, none⟩ (.firstPage g none) st with ⟨e, he⟩ | ⟨u, hu⟩
        · rw [he]
          exact ⟨[], by simp [enqueueAll], by simp [firstCount], by simp [otherCount],
            by simp⟩
        · rw [hu]
          refine ⟨[⟨u, pagerOf ⟨none, none⟩, none, .firstPage g none⟩], rfl,
            le_trans (List.countP_le_length _) (by simp),
            by simp [otherCount, Handler.isOtherPage], ?_⟩
          intro f hf g' input hh res hres
          rw [List.mem_singleton] at hf
          subst hf
          simp only [Handler.firstPage.injEq] at hh
          rw [← hh.1]
          exact hz hin hpos g hg res hres
      | none =>
        simp only []
        obtain ⟨fs, h1, h2⟩ := stripesLoop_cases c none
          (List.range c.args.Concurrency.toNat) st
        obtain ⟨c1, c2⟩ := counts_of_neutral fs h2
        generalize stripesLoop c none (List.range c.args.Concurrency.toNat) st = r at h1
        obtain ⟨e, st1⟩ := r
        simp only [] at h1
        subst h1
        refine ⟨fs, by cases e <;> rfl, by omega, c2, ?_⟩
        intro f hf g input hh
        have := (h2 f hf).1
        rw [hh] at this
        simp [Handler.isFirstPage] at this
    · rw [if_neg hpos]
      rcases fetchAsync_cases c ⟨none, none⟩ (.handleNoPageResponse none) st with
        ⟨e, he⟩ | ⟨u, hu⟩
      · rw [he]
        exact ⟨[], by simp [enqueueAll], by simp [firstCount], by simp [otherCount],
          by simp⟩
      · rw [hu]
        refine ⟨[⟨u, pagerOf ⟨none, none⟩, none, .handleNoPageResponse none⟩], rfl,
          by simp [firstCount, Handler.isFirstPage],
          by simp [otherCount, Handler.isOtherPage], ?_⟩
        intro f hf g' input hh
        rw [List.mem_singleton] at hf
        subst hf
        cases hh
  obtain ⟨fs, h1, h2, h3, h4⟩ := key
  rw [h1]
  refine ⟨hlog, hcur, Or.inl ?_, ?_⟩
  · simp only [enqueueAll, hpend, List.nil_append]
    exact ⟨h2, h3⟩
  · intro f hf
    simp only [enqueueAll, hpend, List.nil_append] at hf
    exact h4 f hf

/-- C4, as stated, fails: when the first response of a known-total run without driving
iterator announces zero pages, the counter ends as (done, total) = (1, 0). -/
theorem progress_counterexample :
    (Execute (demoKnownTotal 5 0 0 0) [0] (State.init [] ⟨0, 0⟩)).2.progress = ⟨1, 0⟩ ∧
    ¬ ProgressOk (Execute (demoKnownTotal 5 0 0 0) [0] (State.init [] ⟨0, 0⟩)).2.progress :=
  ⟨by decide, fun h => absurd (h (by decide)) (by decide)⟩

/-- C4, amended. In every mode (single-shot, known-total, striped, with or without
driving iterator) and for every order of completion, every value the progress counter
takes during `Execute` has done at most total whenever total is not negative, provided
the counter was so before the call and, in a paginated run without driving iterator,
the total-pages extractor does not announce zero pages on the response to the first
page's request. -/
theorem progress_done_le_total (c : ApiCollector ι ρ) (hz : FirstTotalNotZero c)
    (sched : List Nat) (table : List RawData) (progress : Progress)
    (h0 : ProgressOk progress) :
    ProgressOk (Execute c sched (State.init table progress)).2.progress ∧
    ∀ p ∈ (Execute c sched (State.init table progress)).2.progressLog, ProgressOk p := by
  have hnil : ∀ p ∈ (State.init table progress : State ι ρ).progressLog, ProgressOk p := by
    intro p hp
    simp [State.init] at hp
  unfold Execute
  cases c.world.AutoMigrate with
  | some e => exact ⟨h0, hnil⟩
  | none =>
    simp only []
    -- the state after the purge step, when it did not fail
    have hpurge : ∀ st1 : State ι ρ, st1.pending = [] → st1.progress = progress →
        st1.progressLog = [] →
        ProgressOk (match c.args.Input with
          | some iterator =>
            match inputLoop c iterator (SetProgress 0 (-1) st1) with
            | (some e, st3) => (some e, { st3 with closed := true })
            | (none, st3) => (none, { WaitAsync c sched st3 with closed := true })
          | none => ((exec c none st1).1, WaitAsync c sched (exec c none st1).2)).2.progress ∧
        ∀ p ∈ (match c.args.Input with
          | some iterator =>
            match inputLoop c iterator (SetProgress 0 (-1) st1) with
            | (some e, st3) => (some e, { st3 with closed := true })
            | (none, st3) => (none, { WaitAsync c sched st3 with closed := true })
          | none => ((exec c none st1).1, WaitAsync c sched (exec c none st1).2)).2.progressLog,
          ProgressOk p := by
      intro st1 hp1 hp2 hp3
      cases hin : c.args.Input with
      | some iterator =>
        simp only []
        have hS := drivenInv_stable c iterator hin
        have hd0 : DrivenInv (SetProgress 0 (-1) st1) := by
          refine ⟨by simp [SetProgress], ?_⟩
          intro p hp
          simp only [SetProgress, hp3, List.nil_append, List.mem_singleton] at hp
          subst hp
          intro ht
          simp at ht
        have h2 := hS.on_inputLoop iterator _ hd0
        generalize inputLoop c iterator (SetProgress 0 (-1) st1) = r at h2
        obtain ⟨e, st3⟩ := r
        have hok : ∀ st : State ι ρ, DrivenInv st →
            ProgressOk st.progress ∧ ∀ p ∈ st.progressLog, ProgressOk p := by
          intro st h
          refine ⟨?_, h.2⟩
          intro ht
          have := h.1
          omega
        cases e with
        | some e => exact hok st3 h2
        | none => exact hok _ (hS.on_runAsync sched st3 h2)
      | none =>
        simp only []
        have h1 := exec_progInv c hin hz st1 hp1 (by rw [hp3]; simp) (by rw [hp2]; exact h0)
        have h2 := runAsync_progInv c hin sched _ h1
        exact ⟨h2.cur, h2.log⟩
    by_cases hinc : c.args.Incremental = true
    · simp only [hinc, Bool.not_true, Bool.false_eq_true, if_false]
      exact hpurge _ rfl rfl rfl
    · simp only [hinc, Bool.not_false, if_true]
      cases c.world.Delete with
      | some e => exact ⟨h0, hnil⟩
      | none => exact hpurge _ rfl rfl rfl

/-- C4, amended, on an example: a known-total run whose first response announces three
pages. -/
theorem progress_done_le_total_witness :
    ProgressOk (Execute (demoKnownTotal 2 3 1 3) [0, 1, 0]
      (State.init [] ⟨0, 0⟩)).2.progress ∧
    ∀ p ∈ (Execute (demoKnownTotal 2 3 1 3) [0, 1, 0] (State.init [] ⟨0, 0⟩)).2.progressLog,
      ProgressOk p :=
  progress_done_le_total (demoKnownTotal 2 3 1 3)
    (fun _ _ g hg res hres => by
      simp only [demoKnownTotal, demoTotalPages, Option.some.injEq] at hg
      subst hg
      simp only [demoKnownTotal, demoCollector, demoWorld, demoRespond,
        Option.some.injEq] at hres
      subst hres
      simp)
    [0, 1, 0] [] ⟨0, 0⟩ (fun _ => by decide)

end ProgressClaim

section StripePagers

variable {ι ρ : Type}

theorem wrapInt_of_range (x : Int) (h1 : -9223372036854775808 ≤ x)
    (h2 : x ≤ 9223372036854775807) : wrapInt x = x := by
  unfold wrapInt
  omega

theorem wrapInt_add_wrap (a b : Int) : wrapInt (wrapInt a + b) = wrapInt (a + b) := by
  unfold wrapInt
  omega

theorem triangle_double (C : Int) (k : Nat) :
    C * (k : Int) * ((k : Int) - 1) / 2 * 2 = C * (k : Int) * ((k : Int) - 1) := by
  apply Int.ediv_mul_cancel
  have h : Even ((k : Int) * ((k : Int) - 1)) := by
    have := Int.even_mul_succ_self ((k : Int) - 1)
    simpa [mul_comm] using this
  rw [mul_assoc]
  exact Dvd.dvd.mul_left h.two_dvd C

theorem triangle_succ (C : Int) (k : Nat) :
    C * ((k + 1 : Nat) : Int) * (((k + 1 : Nat) : Int) - 1) / 2
      = C * (k : Int) * ((k : Int) - 1) / 2 + C * (k : Int) := by
  have h0 := triangle_double C k
  have h1 := triangle_double C (k + 1)
  have h2 : C * ((k + 1 : Nat) : Int) * (((k + 1 : Nat) : Int) - 1)
      = C * (k : Int) * ((k : Int) - 1) + 2 * (C * (k : Int)) := by
    push_cast; ring
  rw [h2] at h1 ⊢
  omega

theorem stripeRequest_closed_form (c : ApiCollector ι ρ) (i : Int) (k : Nat) :
    (stripeRequest c i k).Size = c.args.PageSize ∧
    (stripeRequest c i k).Page = i + 1 + (k : Int) * c.args.Concurrency ∧
    (stripeRequest c i k).Skip = wrapInt (c.args.PageSize * i + c.args.PageSize *
        ((k : Int) * (i + 1) + c.args.Concurrency * (k : Int) * ((k : Int) - 1) / 2)) := by
  induction k with
  | zero => simp [stripeRequest, stripePager]
  | succ k ih =>
    obtain ⟨h1, h2, h3⟩ := ih
    refine ⟨?_, ?_, ?_⟩
    · simp [stripeRequest, advancePager, h1]
    · simp only [stripeRequest, advancePager, h2]; push_cast; ring
    · simp only [stripeRequest, advancePager, h2, h3]
      rw [wrapInt_add_wrap, triangle_succ]
      congr 1
      push_cast
      ring

theorem fetchAsync_url (c : ApiCollector ι ρ) (hd : NoDispatchError c) (rd : RequestData ι)
    (h : Handler ι ρ) (st : State ι ρ) :
    fetchAsync c rd h st
      = (none, enqueue ⟨urlOf c (pagerOf rd) rd.Input, pagerOf rd, rd.Input, h⟩ st) := by
  obtain ⟨h1, h2, h3, h4⟩ := hd
  obtain ⟨u, hu⟩ := h1 (pagerOf rd) rd.Input
  have hurl : urlOf c (pagerOf rd) rd.Input = u := by
    simp [urlOf, generateUrl, hu]
  have hq : ∃ v, (match c.args.Query with
      | some query => query { rd with Pager := some (pagerOf rd) }
      | none => (.ok "" : Except Error String)) = .ok v := by
    cases hQ : c.args.Query with
    | none => exact ⟨_, rfl⟩
    | some q => exact h2 q hQ _
  have hh : ∃ v, (match c.args.Header with
      | some header => header { rd with Pager := some (pagerOf rd) }
      | none => (.ok "" : Except Error String)) = .ok v := by
    cases hH : c.args.Header with
    | none => exact ⟨_, rfl⟩
    | some q => exact h3 q hH _
  obtain ⟨q, hq⟩ := hq
  obtain ⟨hv, hh⟩ := hh
  rw [hurl]
  unfold fetchAsync
  simp only []
  have hu' : generateUrl c (match rd.Pager with | some p => p | none => defaultPager) rd.Input
      = .ok u := hu
  rw [hu']
  simp only []
  unfold pagerOf at hq hh
  rw [hq]
  simp only []
  rw [hh]
  simp only []
  rw [h4]
  rfl

theorem stripesLoop_exact (c : ApiCollector ι ρ) (hd : NoDispatchError c) (input : Option ι)
    (l : List Nat) (st : State ι ρ) :
    stripesLoop c input l st
      = (none, enqueueAll (l.map fun (i : Nat) => stripeFetch c input (stripePager c (i : Int)))
          st) := by
  induction l generalizing st with
  | nil => simp [stripesLoop, enqueueAll]
  | cons i rest ih =>
    simp only [stripesLoop]
    rw [fetchAsync_url c hd]
    simp only []
    rw [ih]
    simp [enqueueAll, enqueue, stripeFetch, pagerOf]

theorem fetchPagesAsync_exact (c : ApiCollector ι ρ) (hd : NoDispatchError c)
    (hmode : c.args.GetTotalPages = none) (reqData : RequestData ι) (table : List RawData)
    (progress : Progress) :
    (fetchPagesAsync c reqData (State.init table progress)).2.fetched
      = (List.range c.args.Concurrency.toNat).map
          (fun (i : Nat) => stripeFetch c reqData.Input (stripePager c (i : Int))) ∧
    (fetchPagesAsync c reqData (State.init table progress)).2.pending
      = (List.range c.args.Concurrency.toNat).map
          (fun (i : Nat) => stripeFetch c reqData.Input (stripePager c (i : Int))) := by
  unfold fetchPagesAsync
  rw [hmode]
  simp only []
  rw [stripesLoop_exact c hd]
  simp only []
  cases c.args.Input.isSome <;> simp [enqueueAll, State.init, IncProgress]

/-- The handler of a stripe's request, run on a full page, hands the client exactly one
new request: the one for the pager updated by `recursive`. -/
theorem deliver_stripeFetch (c : ApiCollector ι ρ) (hd : NoDispatchError c)
    (hs : NoCreateError c) (input : Option ι) (pager : Pager)
    (hfull : FullPage c input pager) (st : State ι ρ) :
    (deliver c (stripeFetch c input pager) st).fetched
      = st.fetched ++ [stripeFetch c input (advancePager c pager)] ∧
    (deliver c (stripeFetch c input pager) st).pending
      = st.pending ++ [stripeFetch c input (advancePager c pager)] := by
  obtain ⟨res, items, hres, hparse, hlen⟩ := hfull
  obtain ⟨hfr1, hfr2, _, _⟩ := saveRawData_frame c res input st
  have hcount := saveRawData_count c hs res items hparse input st
  have hsv : saveRawData c res input st
      = (((items.length : Int), none), (saveRawData c res input st).2) :=
    Prod.ext hcount rfl
  generalize (saveRawData c res input st).2 = st1 at hsv hfr1 hfr2
  unfold deliver
  simp only [stripeFetch]
  rw [hres]
  simp only [runHandler]
  rw [hsv]
  simp only []
  rw [if_neg (by omega), fetchAsync_url c hd]
  simp [enqueue, hfr1, hfr2, pagerOf]

theorem stepAsync_at (c : ApiCollector ι ρ) (st : State ι ρ) (n : Nat) (f : Fetch ι ρ)
    (hn : n < st.pending.length) (hf : st.pending[n]? = some f) :
    stepAsync c n st = deliver c f { st with pending := st.pending.eraseIdx n } := by
  unfold stepAsync
  rw [Nat.mod_eq_of_lt hn, hf]

/-- While the pages of stripe `i` are full, completing its last request `m` times makes
its next `m` requests, in order. -/
theorem runAsync_stripe (c : ApiCollector ι ρ) (hd : NoDispatchError c)
    (hs : NoCreateError c) (input : Option ι) (i : Int) (R : List (Fetch ι ρ)) (m : Nat) :
    ∀ (j : Nat) (st : State ι ρ),
      st.pending = R ++ [stripeFetch c input (stripeRequest c i j)] →
      (∀ n, j ≤ n → n < j + m → FullPage c input (stripeRequest c i n)) →
      (runAsync c (List.replicate m R.length) st).fetched
        = st.fetched ++ (List.range m).map
            (fun (n : Nat) => stripeFetch c input (stripeRequest c i (j + n + 1))) ∧
      (runAsync c (List.replicate m R.length) st).pending
        = R ++ [stripeFetch c input (stripeRequest c i (j + m))] := by
  induction m with
  | zero =>
    intro j st hp _
    simp [runAsync, hp]
  | succ m ih =>
    intro j st hp hfull
    have hn : R.length < st.pending.length := by rw [hp]; simp
    have hget : st.pending[R.length]? = some (stripeFetch c input (stripeRequest c i j)) := by
      rw [hp]; simp
    have hstep := stepAsync_at c st R.length _ hn hget
    have herase : st.pending.eraseIdx R.length = R := by
      rw [hp, List.eraseIdx_append_of_length_le (le_refl _)]
      simp
    rw [herase] at hstep
    obtain ⟨d1, d2⟩ := deliver_stripeFetch c hd hs input (stripeRequest c i j)
      (hfull j (le_refl _) (by omega)) { st with pending := R }
    simp only [] at d1 d2
    have hrun : runAsync c (List.replicate (m + 1) R.length) st
        = runAsync c (List.replicate m R.length) (stepAsync c R.length st) := rfl
    rw [hrun, hstep]
    obtain ⟨e1, e2⟩ := ih (j + 1) _ d2 (fun n h1 h2 => hfull n (by omega) (by omega))
    rw [e1, e2, d1]
    refine ⟨?_, by rw [Nat.add_right_comm j 1 m, Nat.add_assoc]⟩
    rw [List.range_succ_eq_map, List.map_cons, List.map_map, List.append_assoc]
    congr 1
    simp only [List.singleton_append, Nat.add_zero, stripeRequest, List.cons.injEq, true_and]
    apply List.map_congr_left
    intro n _
    simp only [Function.comp]
    rw [show j + 1 + n = j + n.succ by omega]

/-- C10, as stated, fails: with page size `2^62` and concurrency 3, the initial request
of stripe `i = 2` (`k = 0`) is sent with `Skip = -2^63`, the product `2^62 * 2` wrapped
to the range of `int`, and not with `S * i = 2^63`. -/
theorem stripe_skip_counterexample :
    (fetchedPagers (fetchPagesAsync (demoCollector 4611686018427387904 3 1 1 0) ⟨none, none⟩
      (State.init [] ⟨0, 0⟩)).2).map (fun pg => pg.Skip)
      = [0, 4611686018427387904, -9223372036854775808] ∧
    (stripeRequest (demoCollector 4611686018427387904 3 1 1 0) 2 0).Skip
      = -9223372036854775808 ∧
    ¬ ((stripeRequest (demoCollector 4611686018427387904 3 1 1 0) 2 0).Skip
      = (demoCollector 4611686018427387904 3 1 1 0).args.PageSize * 2
        + (demoCollector 4611686018427387904 3 1 1 0).args.PageSize
          * (0 * (2 + 1) + (demoCollector 4611686018427387904 3 1 1 0).args.Concurrency
              * 0 * (0 - 1) / 2)) :=
  ⟨by decide, by decide, by decide⟩

/-- C10, amended. In a striped run with no dispatch or storage error, when the requests
of stripe `i` complete `k` times in a row on full pages, the requests made are the
initial ones of the stripes followed by the first to `k`-th later requests of stripe
`i`, each sent with the pager `stripeRequest c i j` that `recursive` computed. With
the page number in the range of `int`, this pager has `Size = PageSize`,
`Page = i + 1 + k * Concurrency`, and `Skip` equal to
`PageSize * i + PageSize * (k * (i + 1) + Concurrency * k * (k - 1) / 2)` reduced to
the 64-bit range of `int`, hence equal to it when that value lies in the range; for
`k = 0` this is `PageSize * (Page - 1)` so reduced, and each update by `recursive` adds
`PageSize * Page` to `Skip`, with the same reduction, and then `Concurrency` to
`Page`. -/
theorem stripe_pager_arithmetic (c : ApiCollector ι ρ)
    (hmode : c.args.GetTotalPages = none) (hd : NoDispatchError c) (hs : NoCreateError c)
    (reqData : RequestData ι) (i k : Nat) (hi : i < c.args.Concurrency.toNat)
    (hfull : ∀ j, j < k → FullPage c reqData.Input (stripeRequest c (i : Int) j))
    (hpage : (i : Int) + 1 + (k : Int) * c.args.Concurrency ≤ 9223372036854775807)
    (table : List RawData) (progress : Progress) :
    fetchedPagers (runAsync c (stripeSchedule c.args.Concurrency.toNat i k)
        (fetchPagesAsync c reqData (State.init table progress)).2)
      = (List.range c.args.Concurrency.toNat).map (fun (j : Nat) => stripeRequest c (j : Int) 0)
        ++ (List.range k).map (fun (j : Nat) => stripeRequest c (i : Int) (j + 1)) ∧
    (stripeRequest c (i : Int) k).Size = c.args.PageSize ∧
    (stripeRequest c (i : Int) k).Page = (i : Int) + 1 + (k : Int) * c.args.Concurrency ∧
    wrapInt (stripeRequest c (i : Int) k).Page = (stripeRequest c (i : Int) k).Page ∧
    (stripeRequest c (i : Int) k).Skip = wrapInt (c.args.PageSize * (i : Int) + c.args.PageSize *
        ((k : Int) * ((i : Int) + 1) + c.args.Concurrency * (k : Int) * ((k : Int) - 1) / 2)) ∧
    (-9223372036854775808 ≤ c.args.PageSize * (i : Int) + c.args.PageSize *
        ((k : Int) * ((i : Int) + 1) + c.args.Concurrency * (k : Int) * ((k : Int) - 1) / 2) →
      c.args.PageSize * (i : Int) + c.args.PageSize *
        ((k : Int) * ((i : Int) + 1) + c.args.Concurrency * (k : Int) * ((k : Int) - 1) / 2)
        ≤ 9223372036854775807 →
      (stripeRequest c (i : Int) k).Skip = c.args.PageSize * (i : Int) + c.args.PageSize *
        ((k : Int) * ((i : Int) + 1) + c.args.Concurrency * (k : Int) * ((k : Int) - 1) / 2)) ∧
    (stripeRequest c (i : Int) 0).Skip
      = wrapInt (c.args.PageSize * ((stripeRequest c (i : Int) 0).Page - 1)) ∧
    (stripeRequest c (i : Int) (k + 1)).Skip
      = wrapInt ((stripeRequest c (i : Int) k).Skip
          + c.args.PageSize * (stripeRequest c (i : Int) k).Page) ∧
    (stripeRequest c (i : Int) (k + 1)).Page
      = (stripeRequest c (i : Int) k).Page + c.args.Concurrency := by
  obtain ⟨h1, h2, h3⟩ := stripeRequest_closed_form c (i : Int) k
  have hCpos : 0 < c.args.Concurrency := by omega
  have hk : 0 ≤ (k : Int) * c.args.Concurrency :=
    mul_nonneg (Int.ofNat_nonneg k) (le_of_lt hCpos)
  refine ⟨?_, h1, h2, ?_, h3, ?_, ?_, rfl, rfl⟩
  · obtain ⟨f0, p0⟩ := fetchPagesAsync_exact c hd hmode reqData table progress
    generalize (fetchPagesAsync c reqData (State.init table progress)).2 = st0 at f0 p0
    cases k with
    | zero =>
      simp only [stripeSchedule, runAsync, List.foldl_nil, fetchedPagers, f0, List.map_map,
        List.range_zero, List.map_nil, List.append_nil]
      rfl
    | succ m =>
      have hlen : st0.pending.length = c.args.Concurrency.toNat := by
        rw [p0]; simp
      have hget : st0.pending[i]?
          = some (stripeFetch c reqData.Input (stripeRequest c (i : Int) 0)) := by
        rw [p0, List.getElem?_map, List.getElem?_range hi]
        rfl
      have hstep := stepAsync_at c st0 i _ (by omega) hget
      obtain ⟨d1, d2⟩ := deliver_stripeFetch c hd hs reqData.Input
        (stripeRequest c (i : Int) 0) (hfull 0 (by omega))
        { st0 with pending := st0.pending.eraseIdx i }
      simp only [] at d1 d2
      have hR : (st0.pending.eraseIdx i).length = c.args.Concurrency.toNat - 1 := by
        rw [List.length_eraseIdx, if_pos (by omega), hlen]
      obtain ⟨e1, _⟩ := runAsync_stripe c hd hs reqData.Input (i : Int)
        (st0.pending.eraseIdx i) m 1 _ d2 (fun n _ h => hfull n (by omega))
      have hrun : runAsync c (stripeSchedule c.args.Concurrency.toNat i (m + 1)) st0
          = runAsync c (List.replicate m (st0.pending.eraseIdx i).length)
              (stepAsync c i st0) := by
        rw [hR]; rfl
      rw [hrun, hstep]
      simp only [fetchedPagers]
      rw [e1, d1, f0]
      simp only [List.map_append, List.map_map, List.map_cons, List.map_nil]
      rw [List.append_assoc]
      congr 1
      rw [List.range_succ_eq_map, List.map_cons, List.map_map]
      simp only [List.singleton_append, List.cons.injEq]
      refine ⟨rfl, ?_⟩
      apply List.map_congr_left
      intro n _
      simp only [Function.comp, stripeFetch]
      rw [show 1 + n + 1 = n.succ + 1 by omega]
  · rw [h2]
    exact wrapInt_of_range _ (by omega) hpage
  · intro hlo hhi
    rw [h3]
    exact wrapInt_of_range _ hlo hhi
  · simp [stripeRequest, stripePager]

/-- C10, amended, on an example: page size 2, concurrency 2, stripe 1, whose requests
for the pages 2 and 4 complete on full pages. -/
theorem stripe_pager_arithmetic_witness :
    fetchedPagers (runAsync (demoCollector 2 2 7 1 0)
        (stripeSchedule (demoCollector 2 2 7 1 0).args.Concurrency.toNat 1 2)
        (fetchPagesAsync (demoCollector 2 2 7 1 0) ⟨none, none⟩ (State.init [] ⟨0, 0⟩)).2)
      = (List.range (demoCollector 2 2 7 1 0).args.Concurrency.toNat).map
          (fun (j : Nat) => stripeRequest (demoCollector 2 2 7 1 0) (j : Int) 0)
        ++ (List.range 2).map
          (fun (j : Nat) => stripeRequest (demoCollector 2 2 7 1 0) ((1 : Nat) : Int) (j + 1)) :=
  (stripe_pager_arithmetic (demoCollector 2 2 7 1 0) rfl (demo_noDispatchError 2 2 7 1 0)
    (demo_noCreateError 2 2 7 1 0) ⟨none, none⟩ 1 2 (by decide)
    (fun j hj => by
      have hj2 : j = 0 ∨ j = 1 := by omega
      rcases hj2 with rfl | rfl
      · exact ⟨_, _, rfl, rfl, by decide⟩
      · exact ⟨_, _, rfl, rfl, by decide⟩)
    (by decide) [] ⟨0, 0⟩).1

end StripePagers

section Defects

variable {ι ρ : Type}

/-- C7, the failing input: a known-total run driven by the single record `7`, whose
first response announces one page holding one record. The row stored by
`handleResponse` carries the JSON of the `nil` input, `null`, not the JSON of the
driving record, while the same run with the striped strategy stores `7`. -/
theorem known_total_rows_drop_input :
    (Execute (demoDriven (demoKnownTotal 2 1 1 1) [.ok "7"]) [0]
      (State.init [] ⟨0, 0⟩)).2.inserted = [⟨"F", "r", "/api", "null"⟩] ∧
    (demoKnownTotal 2 1 1 1).world.jsonMarshal (some "7") = "7" ∧
    (Execute (demoDriven (demoCollector 2 1 1 1 0) [.ok "7"]) [0]
      (State.init [] ⟨0, 0⟩)).2.inserted = [⟨"F", "r", "/api", "7"⟩] :=
  ⟨by decide, rfl, by decide⟩

/-- C8, the failing input: a collector with a driving iterator whose table migration
(or whose purge) fails. `Execute` returns the error and `Close` was not called, while
it was called when a later `Fetch` of the iterator fails. -/
theorem iterator_left_open_on_early_error :
    (Execute (demoMigrateFails (demoDriven (demoCollector 0 1 1 1 0) [.ok "7"])) [0]
      (State.init [] ⟨0, 0⟩)).1 = some "migrate failed" ∧
    (Execute (demoMigrateFails (demoDriven (demoCollector 0 1 1 1 0) [.ok "7"])) [0]
      (State.init [] ⟨0, 0⟩)).2.closed = false ∧
    (Execute (demoPurgeFails (demoDriven (demoCollector 0 1 1 1 0) [.ok "7"])) [0]
      (State.init [] ⟨0, 0⟩)).1 = some "purge failed" ∧
    (Execute (demoPurgeFails (demoDriven (demoCollector 0 1 1 1 0) [.ok "7"])) [0]
      (State.init [] ⟨0, 0⟩)).2.closed = false ∧
    (Execute (demoDriven (demoCollector 0 1 1 1 0) [.error "fetch failed"]) [0]
      (State.init [] ⟨0, 0⟩)).2.closed = true :=
  ⟨by decide, by decide, by decide, by decide, by decide⟩

/-- C9, the failing input: a single-shot collector whose iterator yields the record `7`
and then fails. One request was handed to the client and is still pending when
`Execute` returns the error of `Fetch`, and `WaitAsync` was not called; when instead
the dispatch for a second record fails, the loop breaks and `WaitAsync` is called. -/
theorem barrier_skipped_on_fetch_error :
    (Execute (demoDriven (demoCollector 0 1 1 1 0) [.ok "7", .error "fetch failed"]) [0]
      (State.init [] ⟨0, 0⟩)).1 = some "fetch failed" ∧
    (Execute (demoDriven (demoCollector 0 1 1 1 0) [.ok "7", .error "fetch failed"]) [0]
      (State.init [] ⟨0, 0⟩)).2.fetched.length = 1 ∧
    (Execute (demoDriven (demoCollector 0 1 1 1 0) [.ok "7", .error "fetch failed"]) [0]
      (State.init [] ⟨0, 0⟩)).2.pending.length = 1 ∧
    (Execute (demoDriven (demoCollector 0 1 1 1 0) [.ok "7", .error "fetch failed"]) [0]
      (State.init [] ⟨0, 0⟩)).2.waited = false ∧
    (Execute (demoQueryFails (demoDriven (demoCollector 0 1 1 1 0) [.ok "7", .ok "bad"])) [0]
      (State.init [] ⟨0, 0⟩)).2.fetched.length = 1 ∧
    (Execute (demoQueryFails (demoDriven (demoCollector 0 1 1 1 0) [.ok "7", .ok "bad"])) [0]
      (State.init [] ⟨0, 0⟩)).2.waited = true :=
  ⟨by decide, by decide, by decide, by decide, by decide, by decide⟩

end Defects
end Helper

namespace Tasks

theorem isPrefixOf_append_left (a b l : List Char) :
    (a ++ b).isPrefixOf (a ++ l) = b.isPrefixOf l := by
  induction a with
  | nil => rfl
  | cons x xs ih => simp [List.isPrefixOf, ih]

/-- After a leading `ssh://` is trimmed, the URL starts with `git@` exactly when the
URL itself starts with `git@` or with `ssh://git@`. -/
theorem trimmed_starts_with_git (u : String) :
    HasPrefix (TrimPrefix u "ssh://") "git@"
      = (HasPrefix u "git@" || HasPrefix u "ssh://git@") := by
  unfold TrimPrefix
  by_cases h : HasPrefix u "ssh://" = true
  · rw [if_pos h]
    unfold HasPrefix at h ⊢
    obtain ⟨t, ht⟩ := List.isPrefixOf_iff_prefix.mp h
    have e1 : ("ssh://git@" : String).data
        = ("ssh://" : String).data ++ ("git@" : String).data := by
      decide
    rw [e1, ← ht, isPrefixOf_append_left]
    simp only [List.drop_left]
    have e2 : ("git@" : String).data.isPrefixOf (("ssh://" : String).data ++ t) = false := by
      simp [List.isPrefixOf]
    rw [e2, Bool.false_or]
  · rw [if_neg h]
    have h2 : HasPrefix u "ssh://git@" = false := by
      unfold HasPrefix at h ⊢
      cases hp : ("ssh://git@" : String).data.isPrefixOf u.data with
      | false => rfl
      | true =>
        exfalso
        apply h
        obtain ⟨t, ht⟩ := List.isPrefixOf_iff_prefix.mp hp
        have e1 : ("ssh://git@" : String).data
            = ("ssh://" : String).data ++ ("git@" : String).data := by
          decide
        rw [e1, List.append_assoc] at ht
        exact List.isPrefixOf_iff_prefix.mpr ⟨_, ht⟩
    rw [h2, Bool.or_false]

/-- C5, as stated, fails: the options with a non-empty `RepoId`, the URL
`ssh://host/repo` (which starts with `ssh://`) and no proxy are rejected with
`wrong url`. -/
theorem valid_rejects_plain_ssh_url :
    (GitExtractorOptions.Valid ⟨"repo", "ssh://host/repo", "", "", "", "", ""⟩)
      = some "wrong url" ∧
    ("repo" : String) ≠ "" ∧ ("ssh://host/repo" : String) ≠ "" ∧
    HasPrefix "ssh://host/repo" "ssh://" = true ∧ ("" : String) = "" :=
  ⟨by decide, by decide, by decide, by decide, rfl⟩

/-- C5, amended. `Valid` returns no error if and only if `RepoId` is non-empty, `Url`
is non-empty, `Url` starts with `http`, with `git@`, with `ssh://git@` or with `/`, and
`Proxy` is empty or starts with `http://`. -/
theorem valid_iff (o : GitExtractorOptions) :
    o.Valid = none ↔
      o.RepoId ≠ "" ∧ o.Url ≠ "" ∧
      (HasPrefix o.Url "http" = true ∨ HasPrefix o.Url "git@" = true ∨
        HasPrefix o.Url "ssh://git@" = true ∨ HasPrefix o.Url "/" = true) ∧
      (o.Proxy = "" ∨ HasPrefix o.Proxy "http://" = true) := by
  unfold GitExtractorOptions.Valid
  simp only [trimmed_starts_with_git]
  by_cases h1 : o.RepoId = ""
  · simp [h1]
  by_cases h2 : o.Url = ""
  · simp [h1, h2]
  simp only [h1, h2, if_false]
  cases HasPrefix o.Url "http" <;> cases HasPrefix o.Url "git@" <;>
    cases HasPrefix o.Url "ssh://git@" <;> cases HasPrefix o.Url "/" <;>
    by_cases h3 : o.Proxy = "" <;> cases HasPrefix o.Proxy "http://" <;> simp [h1, h2, h3]

end Tasks
